import Mathlib

set_option linter.unusedVariables false

/-!  Verification of the OpenAPI importer's converter module: the document
parser/validator, the reference resolver (deepDeref with cycle detection and
allOf merging), the example synthesizer, the content selector, the tree
builder, and the name sanitizer, shallowly embedded over a JSON value type. -/

/-- A JSON-like runtime value, as handed to the converter by the JSON/YAML
parsers. Numbers are integers (the schema fragments the module manipulates use
integral literals only); object fields are kept in insertion order, matching
the iteration order of plain JS objects with non-index string keys. A field
whose value is the JS undefined is modelled as an absent field, which is
observationally equivalent for every operation in this module: key loops merge
undefined entries back to the existing value, typeof undefined passes no
object/string test, and serialization drops such fields. -/
inductive Json where
  | null
  | bool (b : Bool)
  | num (n : Int)
  | str (s : String)
  | arr (elems : List Json)
  | obj (fields : List (String × Json))
deriving Inhabited

/-- JS truthiness: null, false, 0 and the empty string are falsy; every array
and object, even empty, is truthy. -/
def truthy : Json → Bool
  | .null => false
  | .bool b => b
  | .num n => n != 0
  | .str s => s != ""
  | .arr _ => true
  | .obj _ => true

/-- Truthiness of a possibly-undefined value (undefined is falsy). -/
def truthyO : Option Json → Bool
  | none => false
  | some v => truthy v

/-- First binding of a key in a field list (JS property read on an object). -/
def getField : List (String × Json) → String → Option Json
  | [], _ => none
  | (k, v) :: fs, key => if k == key then some v else getField fs key

/-- Property read on a value: only objects carry the fields we look up here. -/
def getF (v : Json) (key : String) : Option Json :=
  match v with
  | .obj fs => getField fs key
  | _ => none

/-- Whether the key is bound in the field list. -/
def hasKeyF (fs : List (String × Json)) (key : String) : Bool :=
  fs.any (fun p => p.1 == key)

/-- JS property write `out[key] = v`: update the binding in place if the key is
present, otherwise append it (insertion order preserved). -/
def setKey : List (String × Json) → String → Json → List (String × Json)
  | [], key, v => [(key, v)]
  | (k1, w) :: fs, key, v =>
    if k1 == key then (key, v) :: fs else (k1, w) :: setKey fs key v

/-- Remove a key (the model of spreading with the key set to undefined). -/
def eraseKey (fs : List (String × Json)) (key : String) : List (String × Json) :=
  fs.filter (fun p => p.1 != key)

mutual
/-- Structural size of a value, used as a fuel bound for the resolver. -/
def jsize : Json → Nat
  | .null => 1
  | .bool _ => 1
  | .num _ => 1
  | .str _ => 1
  | .arr xs => 1 + jsizeL xs
  | .obj fs => 1 + jsizeF fs
/-- Size of an element list (one unit of fuel per element, plus a base unit). -/
def jsizeL : List Json → Nat
  | [] => 1
  | x :: xs => jsize x + 1 + jsizeL xs
/-- Size of a field list (one unit of fuel per field, plus a base unit). -/
def jsizeF : List (String × Json) → Nat
  | [] => 1
  | (_, v) :: fs => jsize v + 1 + jsizeF fs
end

/-- Member-wise induction principle for Json (the nested lists are traversed
through their members). -/
theorem json_ind {P : Json → Prop} (hnull : P .null) (hbool : ∀ b, P (.bool b))
    (hnum : ∀ n, P (.num n)) (hstr : ∀ s, P (.str s))
    (harr : ∀ xs, (∀ x ∈ xs, P x) → P (.arr xs))
    (hobj : ∀ fs, (∀ p ∈ fs, P p.2) → P (.obj fs)) : ∀ v, P v
  | .null => hnull
  | .bool b => hbool b
  | .num n => hnum n
  | .str s => hstr s
  | .arr xs => harr xs (fun x hx =>
      json_ind hnull hbool hnum hstr harr hobj x)
  | .obj fs => hobj fs (fun p hp =>
      json_ind hnull hbool hnum hstr harr hobj p.2)
termination_by v => sizeOf v
decreasing_by
  · have := List.sizeOf_lt_of_mem hx
    simp only [Json.arr.sizeOf_spec]
    omega
  · have h1 := List.sizeOf_lt_of_mem hp
    obtain ⟨a, b⟩ := p
    simp only [Json.obj.sizeOf_spec, Prod.mk.sizeOf_spec] at *
    omega

/-- Whether a value is a JS primitive (compared by value inside a Set). -/
def isPrim : Json → Bool
  | .null => true
  | .bool _ => true
  | .num _ => true
  | .str _ => true
  | _ => false

/-- Value equality of primitives (SameValueZero restricted to primitives;
objects and arrays compare by reference and the resolver only ever unions
freshly-built ones, so they never collide). -/
def primEq : Json → Json → Bool
  | .null, .null => true
  | .bool a, .bool b => a == b
  | .num a, .num b => a == b
  | .str a, .str b => a == b
  | _, _ => false

/-- Iteration order of `new Set([...])`: first occurrence wins, primitive
duplicates dropped. -/
def dedupPrims : List Json → List Json → List Json
  | [], _ => []
  | x :: xs, seen =>
    if isPrim x && seen.any (primEq x) then dedupPrims xs seen
    else x :: dedupPrims xs (x :: seen)

mutual
/-- The source's mergeObjects restricted to two defined values (the
undefined-on-either-side cases live in mergeObjects below): null yields the
other side; two arrays form their order-preserving union with primitive
duplicates removed; two objects merge keywise with b winning on conflicts and
b's allOf key skipped; any other combination returns b outright. -/
def merge1 : Json → Json → Json
  | .null, b => b
  | a, .null => a
  | .arr xs, .arr ys => .arr (dedupPrims (xs ++ ys) [])
  | .obj fa, .obj fb => .obj (mergeFields fa fa fb)
  | _, b => b
/-- The key loop of mergeObjects: out starts as a copy of a, then every key of
b except allOf is written with merge(a[k], b[k]). -/
def mergeFields (fa acc : List (String × Json)) :
    List (String × Json) → List (String × Json)
  | [] => acc
  | (k, v) :: rest =>
    if k == "allOf" then mergeFields fa acc rest
    else
      mergeFields fa
        (setKey acc k
          (match getField fa k with
           | none => v
           | some av => merge1 av v)) rest
end

/-- The source's mergeObjects: undefined on either side yields the other. -/
def mergeObjects : Option Json → Option Json → Option Json
  | none, b => b
  | a, none => a
  | some a, some b => some (merge1 a b)

/-- Merge of a possibly-undefined left operand with a defined right operand
(always defined; this is the shape every call in deepDeref uses). -/
def mergeOpt1 (a : Option Json) (b : Json) : Json :=
  match a with
  | none => b
  | some av => merge1 av b

/-- C9: merge(a, null) gives back a, merge(null, b) gives back b, and merging
the sequences [1,2] and [2,3] gives their order-preserving de-duplicated union
[1,2,3]. -/
theorem c9_merge_null_identity_and_union :
    (∀ a : Json, mergeObjects (some a) (some .null) = some a)
    ∧ (∀ b : Json, mergeObjects (some .null) (some b) = some b)
    ∧ mergeObjects (some (.arr [.num 1, .num 2])) (some (.arr [.num 2, .num 3]))
      = some (.arr [.num 1, .num 2, .num 3]) := by
  refine ⟨fun a => ?_, fun b => ?_, by rfl⟩
  · cases a <;> rfl
  · cases b <;> rfl

/-- Whether the first list starts with the second one (computable character
version of String.startsWith, kept kernel-reducible). -/
def leadsWith : List Char → List Char → Bool
  | _, [] => true
  | [], _ :: _ => false
  | c :: cs, p :: ps => c == p && leadsWith cs ps

/-- Whether the string starts with the given head string. -/
def strLeads (s pre : String) : Bool :=
  leadsWith s.data pre.data

/-- Splitting at every slash, JS String.prototype.split("/") style: the empty
input gives one empty segment, and separators at the ends give empty
segments. -/
def splitSlash : List Char → List (List Char)
  | [] => [[]]
  | c :: rest =>
    if c == '/' then [] :: splitSlash rest
    else
      match splitSlash rest with
      | s :: ss => (c :: s) :: ss
      | [] => [[c]]

/-- Global, left-to-right, non-overlapping replacement of the two-character
pattern p1 p2 by the single character r (the shape of the ~1 and ~0 pointer
unescapes). -/
def replace2 (p1 p2 r : Char) : List Char → List Char
  | [] => []
  | [c] => [c]
  | c1 :: c2 :: rest =>
    if c1 == p1 && c2 == p2 then r :: replace2 p1 p2 r rest
    else c1 :: replace2 p1 p2 r (c2 :: rest)

/-- Decimal value of a digit list. -/
def digitsVal (l : List Char) : Nat :=
  l.foldl (fun acc c => acc * 10 + (c.toNat - '0'.toNat)) 0

/-- Canonical array-index reading of a path segment: JS a[p] hits an element
only when p is the canonical decimal form of an index (no leading zeros, no
signs); any other string is an absent property on the array. -/
def jsIndex (p : String) : Option Nat :=
  if p.length > 0 && p.data.all (fun c => c.isDigit)
      && (p == "0" || p.data.head? != some '0') then some (digitsVal p.data)
  else none

/-- One step of the pointer walk: property read on objects, canonical index
read on arrays; null and primitives end the walk with undefined. -/
def ptrStep (cur : Option Json) (p : String) : Option Json :=
  match cur with
  | some (.obj fs) => getField fs p
  | some (.arr xs) =>
    match jsIndex p with
    | some i => xs.get? i
    | none => none
  | _ => none

/-- Unescaping of one pointer segment: every ~1 becomes / first, then every ~0
becomes ~. -/
def unescapePart (p : List Char) : String :=
  String.mk (replace2 '~' '0' '~' (replace2 '~' '1' '/' p))

/-- The source's getByPointer: only in-document pointers of the form #/a/b/c
are followed; anything else is undefined. The pointer body after #/ is split
at slashes, each segment unescaped, and the segments are walked from the
root. -/
def getByPointer (root : Json) (pointer : String) : Option Json :=
  if strLeads pointer "#/" then
    ((splitSlash (pointer.data.drop 2)).map unescapePart).foldl ptrStep (some root)
  else none

/-- The resolver's by-pointer memo table (refCache). A hit whose stored value
is none records a pointer that resolved to undefined. Insertion is modelled by
prepending, and lookup takes the newest binding, matching Map.set/Map.get. -/
abbrev RefCache := List (String × Option Json)

/-- Map.get on the ref cache (Map.has is isSome of this). -/
def cacheFind : RefCache → String → Option (Option Json)
  | [], _ => none
  | (k, v) :: rest, key => if k == key then some v else cacheFind rest key

mutual
/-- The source's deepDeref closure, with the document and the mutable pieces
made explicit: stack is the resolvingStack of ref strings currently
mid-resolution (pushed for the recursive resolution of a pointer target and
popped on exit, hence passed only to that recursive call), cache is the
refCache keyed by ref string. Fuel makes the recursion total; none means the
fuel ran out, and the termination theorem below shows enough fuel always
exists. The by-object-identity memo table of the source is dropped: on the
tree-shaped values modelled here it only ever returns what recomputation would
produce (a ref-bearing object is answered through refCache either way, and a
plain object's fields resolve identically on a revisit), so it does not change
the returned value. deepDeref of the JS undefined returns undefined at once;
that case is inlined at its single call site (an unresolvable pointer
target). -/
def deepDerefJ (doc : Json) (fuel : Nat) (stack : List String) (cache : RefCache)
    (v : Json) : Option (Json × RefCache) :=
  match fuel with
  | 0 => none
  | fuel' + 1 =>
    match v with
    | .null => some (.null, cache)
    | .bool b => some (.bool b, cache)
    | .num n => some (.num n, cache)
    | .str s => some (.str s, cache)
    | .arr xs =>
      match derefList doc fuel' stack cache xs with
      | none => none
      | some (ys, c) => some (.arr ys, c)
    | .obj fields =>
      match getField fields "$ref" with
      | some (.str ref) =>
        match cacheFind cache ref with
        | some base => some (mergeOpt1 base (.obj (eraseKey fields "$ref")), cache)
        | none =>
          if stack.contains ref then
            some (.obj (setKey fields "__circularRef__" (.bool true)), cache)
          else
            match getByPointer doc ref with
            | none => some (mergeOpt1 none (.obj (eraseKey fields "$ref")),
                (ref, none) :: cache)
            | some t =>
              match deepDerefJ doc fuel' (ref :: stack) cache t with
              | none => none
              | some (rt, c1) =>
                some (mergeOpt1 (some rt) (.obj (eraseKey fields "$ref")),
                  (ref, some rt) :: c1)
      | _ =>
        match getField fields "allOf" with
        | some (.arr parts) =>
          match derefList doc fuel' stack cache parts with
          | none => none
          | some (ps, c1) =>
            match deepDerefJ doc fuel' stack c1 (.obj (eraseKey fields "allOf")) with
            | none => none
            | some (rrest, c2) => some (merge1 (ps.foldl merge1 (.obj [])) rrest, c2)
        | _ =>
          match derefFields doc fuel' stack cache fields with
          | none => none
          | some (out, c) => some (.obj out, c)
/-- Element-wise resolution of an array (value.map(deepDeref)), threading the
ref cache left to right. -/
def derefList (doc : Json) (fuel : Nat) (stack : List String) (cache : RefCache)
    (xs : List Json) : Option (List Json × RefCache) :=
  match xs with
  | [] => some ([], cache)
  | x :: rest =>
    match fuel with
    | 0 => none
    | fuel' + 1 =>
      match deepDerefJ doc fuel' stack cache x with
      | none => none
      | some (y, c1) =>
        match derefList doc fuel' stack c1 rest with
        | none => none
        | some (ys, c2) => some (y :: ys, c2)
/-- Field-wise resolution of a plain object (the final recurse-props loop),
threading the ref cache in field order. -/
def derefFields (doc : Json) (fuel : Nat) (stack : List String) (cache : RefCache)
    (fs : List (String × Json)) : Option (List (String × Json) × RefCache) :=
  match fs with
  | [] => some ([], cache)
  | (k, v) :: rest =>
    match fuel with
    | 0 => none
    | fuel' + 1 =>
      match deepDerefJ doc fuel' stack cache v with
      | none => none
      | some (w, c1) =>
        match derefFields doc fuel' stack c1 rest with
        | none => none
        | some (ws, c2) => some ((k, w) :: ws, c2)
end

/-- The sentinel test the specification allows: the object carries the
property __circularRef__ with value true (the flag deepDeref writes when it
detects a re-entrant ref). -/
def isFlaggedTrue (fs : List (String × Json)) : Bool :=
  match getField fs "__circularRef__" with
  | some (.bool true) => true
  | _ => false

mutual
/-- Whether a $ref key occurs anywhere outside an object flagged circular
(the property the specification asserts resolved fragments never have). A
flagged object exempts its whole subtree, since the sentinel deliberately
retains its original fields, $ref included. -/
def hasBadRef : Json → Bool
  | .null => false
  | .bool _ => false
  | .num _ => false
  | .str _ => false
  | .arr xs => hasBadRefL xs
  | .obj fs => if isFlaggedTrue fs then false else hasKeyF fs "$ref" || hasBadRefF fs
def hasBadRefL : List Json → Bool
  | [] => false
  | x :: xs => hasBadRef x || hasBadRefL xs
def hasBadRefF : List (String × Json) → Bool
  | [] => false
  | (_, v) :: fs => hasBadRef v || hasBadRefF fs
end

mutual
/-- Whether any object anywhere in the value binds the given key. -/
def hasKeyDeep (key : String) : Json → Bool
  | .null => false
  | .bool _ => false
  | .num _ => false
  | .str _ => false
  | .arr xs => hasKeyDeepL key xs
  | .obj fs => hasKeyF fs key || hasKeyDeepF key fs
def hasKeyDeepL (key : String) : List Json → Bool
  | [] => false
  | x :: xs => hasKeyDeep key x || hasKeyDeepL key xs
def hasKeyDeepF (key : String) : List (String × Json) → Bool
  | [] => false
  | (_, v) :: fs => hasKeyDeep key v || hasKeyDeepF key fs
end

/-- No duplicate keys in a field list (plain JS objects cannot repeat a key). -/
def keysNodup : List (String × Json) → Bool
  | [] => true
  | (k, _) :: fs => !hasKeyF fs k && keysNodup fs

mutual
/-- Hereditarily duplicate-free keys, the shape of every value a real JS
parser can hand the resolver. -/
def nodupH : Json → Bool
  | .null => true
  | .bool _ => true
  | .num _ => true
  | .str _ => true
  | .arr xs => nodupHL xs
  | .obj fs => keysNodup fs && nodupHF fs
def nodupHL : List Json → Bool
  | [] => true
  | x :: xs => nodupH x && nodupHL xs
def nodupHF : List (String × Json) → Bool
  | [] => true
  | (_, v) :: fs => nodupH v && nodupHF fs
end

mutual
/-- No $ref binding and no __circularRef__ binding anywhere in the value. -/
def refCircFree : Json → Bool
  | .null => true
  | .bool _ => true
  | .num _ => true
  | .str _ => true
  | .arr xs => refCircFreeL xs
  | .obj fs => !hasKeyF fs "$ref" && !hasKeyF fs "__circularRef__" && refCircFreeF fs
def refCircFreeL : List Json → Bool
  | [] => true
  | x :: xs => refCircFree x && refCircFreeL xs
def refCircFreeF : List (String × Json) → Bool
  | [] => true
  | (_, v) :: fs => refCircFree v && refCircFreeF fs
end

mutual
/-- Well-formed references: no reserved __circularRef__ marker anywhere; every
$ref binding is string-valued; and the sibling fields carried next to a $ref
are themselves free of refs and markers (they are merged raw, never resolved,
so anything else leaks through resolution). -/
def wfRefs : Json → Bool
  | .null => true
  | .bool _ => true
  | .num _ => true
  | .str _ => true
  | .arr xs => wfRefsL xs
  | .obj fs =>
    !hasKeyF fs "__circularRef__" &&
    (match getField fs "$ref" with
     | some (.str _) => refCircFreeF (eraseKey fs "$ref")
     | some _ => false
     | none => wfRefsF fs)
def wfRefsL : List Json → Bool
  | [] => true
  | x :: xs => wfRefs x && wfRefsL xs
def wfRefsF : List (String × Json) → Bool
  | [] => true
  | (_, v) :: fs => wfRefs v && wfRefsF fs
end

mutual
/-- The produced-value invariant of the resolver: an object is either a
circular sentinel (flag set to true) or carries neither a $ref nor a
__circularRef__ binding and has invariant children. -/
def okOut : Json → Bool
  | .null => true
  | .bool _ => true
  | .num _ => true
  | .str _ => true
  | .arr xs => okOutL xs
  | .obj fs =>
    isFlaggedTrue fs ||
      (!hasKeyF fs "$ref" && !hasKeyF fs "__circularRef__" && okOutF fs)
def okOutL : List Json → Bool
  | [] => true
  | x :: xs => okOut x && okOutL xs
def okOutF : List (String × Json) → Bool
  | [] => true
  | (_, v) :: fs => okOut v && okOutF fs
end

mutual
/-- All ref strings occurring in a value (the candidates for the resolving
stack). -/
def refList : Json → List String
  | .null => []
  | .bool _ => []
  | .num _ => []
  | .str _ => []
  | .arr xs => refListL xs
  | .obj fs =>
    (match getField fs "$ref" with
     | some (.str r) => [r]
     | _ => []) ++ refListF fs
def refListL : List Json → List String
  | [] => []
  | x :: xs => refList x ++ refListL xs
def refListF : List (String × Json) → List String
  | [] => []
  | (_, v) :: fs => refList v ++ refListF fs
end

/-- A small valid document (openapi 3.x with a paths mapping) whose schema C
is a $ref to A that carries a sibling field whose value is itself a $ref to
B. -/
def docSib : Json := .obj [
  ("openapi", .str "3.0.0"),
  ("paths", .obj []),
  ("components", .obj [("schemas", .obj [
    ("A", .obj [("type", .str "string")]),
    ("B", .obj [("type", .str "integer")]),
    ("C", .obj [("$ref", .str "#/components/schemas/A"),
                ("extra", .obj [("$ref", .str "#/components/schemas/B")])])])])]

/-- The fragment at #/components/schemas/C of docSib, i.e. a fragment
reachable in the document. -/
def fragSib : Json :=
  .obj [("$ref", .str "#/components/schemas/A"),
        ("extra", .obj [("$ref", .str "#/components/schemas/B")])]

/-- A valid document with a reference cycle: schema A's property b references
schema B, whose property a references back to A. -/
def docCyc : Json := .obj [
  ("openapi", .str "3.0.0"),
  ("paths", .obj []),
  ("components", .obj [("schemas", .obj [
    ("A", .obj [("type", .str "object"),
                ("properties", .obj [("b", .obj [("$ref", .str "#/components/schemas/B")])])]),
    ("B", .obj [("properties", .obj [("a", .obj [("$ref", .str "#/components/schemas/A")])])])])])]

/-- What deepDeref produces for the fragment referencing the cyclic schema A
of docCyc: the cycle is broken at the re-entrant occurrence of A's ref string,
which comes back as the original fragment plus the __circularRef__ marker. -/
def cycExpected : Json :=
  .obj [("type", .str "object"),
        ("properties", .obj [("b", .obj [("properties", .obj [("a",
          .obj [("$ref", .str "#/components/schemas/A"),
                ("__circularRef__", .bool true)])])])])]

/-- C1 counterexample: on the valid document docSib, resolving its reachable
fragment C terminates but yields a value that still contains a $ref key (the
sibling field extra was merged raw on top of the resolved target, and it
carries an untouched $ref to B) outside any circular-flagged sentinel. -/
theorem c1_counterexample_sibling_ref :
    (deepDerefJ docSib 20 [] [] fragSib).map (fun p => hasBadRef p.1)
      = some true := by rfl

/-- C6 counterexample: resolving a fragment whose $ref pointer is not found
does not produce an absent value; it produces the fragment's remaining fields,
here the empty object (and the pointer is cached as unresolved). -/
theorem c6_counterexample_resolves_to_empty_object :
    (deepDerefJ docSib 20 [] [] (.obj [("$ref", .str "#/missing")])).map
        (fun p => p.1) = some (.obj [])
    ∧ (some (Json.obj []) ≠ (none : Option Json)) :=
  ⟨by rfl, by simp⟩

/-- C6 amended: the pointer lookup itself soft-fails to an absent value for
any pointer that does not start with #/ and, whenever the lookup of the ref
string fails, the resolver does not abort: it returns the fragment with the
$ref key removed (the empty object for a bare $ref) and records the pointer as
unresolved in the ref cache. -/
theorem c6_amended_unresolved_ref_soft_fails :
    (∀ (doc : Json) (p : String), strLeads p "#/" = false →
      getByPointer doc p = none)
    ∧ (∀ (doc : Json) (fields : List (String × Json)) (r : String) (fuel : Nat)
        (stack : List String) (cache : RefCache),
        getField fields "$ref" = some (.str r) →
        cacheFind cache r = none →
        stack.contains r = false →
        getByPointer doc r = none →
        deepDerefJ doc (fuel + 1) stack cache (.obj fields)
          = some (.obj (eraseKey fields "$ref"), (r, none) :: cache)) := by
  constructor
  · intro doc p h
    simp [getByPointer, h]
  · intro doc fields r fuel stack cache hr hc hs hp
    simp at hs
    simp [deepDerefJ, hr, hc, hs, hp, mergeOpt1]

/-- C6 witness: the amended statement applied at a pointer without the #/ head
and at a concrete unresolvable $ref fragment. -/
theorem c6_amended_witness :
    getByPointer docSib "nope" = none
    ∧ deepDerefJ docSib 20 [] [] (.obj [("$ref", .str "#/missing")])
      = some (.obj [], [("#/missing", none)]) := by
  refine ⟨c6_amended_unresolved_ref_soft_fails.1 docSib "nope" (by rfl), ?_⟩
  exact c6_amended_unresolved_ref_soft_fails.2 docSib
    [("$ref", .str "#/missing")] "#/missing" 19 [] [] rfl rfl rfl (by rfl)

/-- C2 counterexample: for the cyclic document docCyc the resolver terminates
and breaks the cycle with a sentinel, but the sentinel's marker key is
__circularRef__, not circular: no object anywhere in the result binds a key
named circular. -/
theorem c2_counterexample_marker_key :
    (deepDerefJ docCyc 50 [] []
        (.obj [("$ref", .str "#/components/schemas/A")])).map (fun p => p.1)
      = some cycExpected
    ∧ hasKeyDeep "circular" cycExpected = false
    ∧ hasKeyDeep "__circularRef__" cycExpected = true :=
  ⟨by rfl, by rfl, by rfl⟩

theorem jsize_pos : ∀ v, 1 ≤ jsize v := by
  intro v
  cases v <;> simp [jsize]

theorem jsizeL_pos : ∀ xs, 1 ≤ jsizeL xs := by
  intro xs
  cases xs <;> simp [jsizeL] <;> omega

theorem jsizeF_pos : ∀ fs, 1 ≤ jsizeF fs := by
  intro fs
  cases fs with
  | nil => simp [jsizeF]
  | cons p fs => obtain ⟨k, v⟩ := p; simp [jsizeF]; omega

theorem getField_mem : ∀ (fs : List (String × Json)) (k : String) (v : Json),
    getField fs k = some v → (k, v) ∈ fs := by
  intro fs
  induction fs with
  | nil => intro k v h; simp [getField] at h
  | cons p rest ih =>
    intro k v h
    obtain ⟨k1, w⟩ := p
    by_cases hk : k1 == k
    · simp [getField, hk] at h
      have hk' : k1 = k := by simpa using hk
      subst hk'
      subst h
      exact List.mem_cons_self _ _
    · simp [getField, hk] at h
      exact List.mem_cons_of_mem _ (ih k v h)

theorem mem_jsizeF : ∀ (fs : List (String × Json)) (k : String) (v : Json),
    (k, v) ∈ fs → jsize v + 2 ≤ jsizeF fs := by
  intro fs
  induction fs with
  | nil => intro k v h; simp at h
  | cons p rest ih =>
    intro k v h
    obtain ⟨k1, w⟩ := p
    rcases List.mem_cons.mp h with h1 | h1
    · obtain ⟨hk, hv⟩ := Prod.mk.injEq .. ▸ h1
      subst hv
      have := jsizeF_pos rest
      simp [jsizeF]
      omega
    · have := ih k v h1
      have := jsize_pos w
      simp [jsizeF]
      omega

theorem mem_jsizeL : ∀ (xs : List Json) (x : Json), x ∈ xs →
    jsize x + 2 ≤ jsizeL xs := by
  intro xs
  induction xs with
  | nil => intro x h; simp at h
  | cons y rest ih =>
    intro x h
    rcases List.mem_cons.mp h with h1 | h1
    · subst h1
      have := jsizeL_pos rest
      simp [jsizeL]
      omega
    · have := ih x h1
      have := jsize_pos y
      simp [jsizeL]
      omega

theorem eraseKey_cons_ne (k1 k : String) (w : Json) (rest : List (String × Json))
    (h : k1 ≠ k) : eraseKey ((k1, w) :: rest) k = (k1, w) :: eraseKey rest k := by
  simp [eraseKey, List.filter_cons, h]

theorem eraseKey_cons_eq (k : String) (w : Json) (rest : List (String × Json)) :
    eraseKey ((k, w) :: rest) k = eraseKey rest k := by
  simp [eraseKey, List.filter_cons]

theorem jsizeF_eraseKey_le : ∀ (fs : List (String × Json)) (k : String),
    jsizeF (eraseKey fs k) ≤ jsizeF fs := by
  intro fs k
  induction fs with
  | nil => simp [eraseKey, jsizeF]
  | cons p rest ih =>
    obtain ⟨k1, w⟩ := p
    by_cases hk : k1 = k
    · subst hk
      rw [eraseKey_cons_eq]
      simp [jsizeF]
      have := jsize_pos w
      omega
    · rw [eraseKey_cons_ne k1 k w rest hk]
      simp [jsizeF]
      omega

theorem getField_jsizeF_erase : ∀ (fs : List (String × Json)) (k : String) (v : Json),
    getField fs k = some v → jsizeF (eraseKey fs k) + jsize v + 1 ≤ jsizeF fs := by
  intro fs
  induction fs with
  | nil => intro k v h; simp [getField] at h
  | cons p rest ih =>
    intro k v h
    obtain ⟨k1, w⟩ := p
    by_cases hk : k1 = k
    · subst hk
      simp [getField] at h
      subst h
      rw [eraseKey_cons_eq]
      have h2 := jsizeF_eraseKey_le rest k1
      simp [jsizeF]
      omega
    · have hk' : (k1 == k) = false := by simpa using hk
      simp [getField, hk'] at h
      have h2 := ih k v h
      rw [eraseKey_cons_ne k1 k w rest hk]
      simp [jsizeF]
      omega

theorem getField_eraseKey_ne : ∀ (fs : List (String × Json)) (k k' : String),
    k ≠ k' → getField (eraseKey fs k') k = getField fs k := by
  intro fs k k' hne
  induction fs with
  | nil => simp [eraseKey, getField]
  | cons p rest ih =>
    obtain ⟨k1, w⟩ := p
    by_cases hk : k1 = k'
    · subst hk
      rw [eraseKey_cons_eq]
      have : (k1 == k) = false := by
        simp
        exact fun h => hne (h ▸ rfl)
      simp [getField, this]
      exact ih
    · rw [eraseKey_cons_ne k1 k' w rest hk]
      by_cases h1 : k1 == k
      · simp [getField, h1]
      · simp [getField, h1]
        exact ih

theorem refListL_mem : ∀ (xs : List Json) (x : Json) (r : String),
    x ∈ xs → r ∈ refList x → r ∈ refListL xs := by
  intro xs
  induction xs with
  | nil => intro x r h; simp at h
  | cons y rest ih =>
    intro x r h hr
    rcases List.mem_cons.mp h with h1 | h1
    · subst h1
      simp [refListL]
      exact Or.inl hr
    · simp [refListL]
      exact Or.inr (ih x r h1 hr)

theorem refListF_mem : ∀ (fs : List (String × Json)) (k : String) (v : Json) (r : String),
    (k, v) ∈ fs → r ∈ refList v → r ∈ refListF fs := by
  intro fs
  induction fs with
  | nil => intro k v r h; simp at h
  | cons p rest ih =>
    intro k v r h hr
    obtain ⟨k1, w⟩ := p
    rcases List.mem_cons.mp h with h1 | h1
    · obtain ⟨hk, hv⟩ := Prod.mk.injEq .. ▸ h1
      subst hv
      simp [refListF]
      exact Or.inl hr
    · simp [refListF]
      exact Or.inr (ih k v r h1 hr)

theorem refListF_erase_sub : ∀ (fs : List (String × Json)) (k : String) (r : String),
    r ∈ refListF (eraseKey fs k) → r ∈ refListF fs := by
  intro fs k r
  induction fs with
  | nil => simp [eraseKey, refListF]
  | cons p rest ih =>
    obtain ⟨k1, w⟩ := p
    by_cases hk : k1 = k
    · subst hk
      rw [eraseKey_cons_eq]
      intro h
      simp [refListF]
      exact Or.inr (ih h)
    · rw [eraseKey_cons_ne k1 k w rest hk]
      intro h
      simp [refListF] at h ⊢
      rcases h with h | h
      · exact Or.inl h
      · exact Or.inr (ih h)

theorem refListF_sub_obj : ∀ (fs : List (String × Json)) (r : String),
    r ∈ refListF fs → r ∈ refList (.obj fs) := by
  intro fs r h
  show r ∈ _ ++ refListF fs
  exact List.mem_append_right _ h

theorem ref_self_mem : ∀ (fs : List (String × Json)) (r : String),
    getField fs "$ref" = some (.str r) → r ∈ refList (.obj fs) := by
  intro fs r h
  show r ∈ (match getField fs "$ref" with
     | some (.str r) => [r]
     | _ => []) ++ refListF fs
  rw [h]
  simp

theorem refList_obj_erase_allOf : ∀ (fs : List (String × Json)) (r : String),
    r ∈ refList (.obj (eraseKey fs "allOf")) → r ∈ refList (.obj fs) := by
  intro fs r h
  have hg : getField (eraseKey fs "allOf") "$ref" = getField fs "$ref" :=
    getField_eraseKey_ne fs "$ref" "allOf" (by decide)
  show r ∈ (match getField fs "$ref" with
     | some (.str r) => [r]
     | _ => []) ++ refListF fs
  have h' : r ∈ (match getField (eraseKey fs "allOf") "$ref" with
     | some (.str r) => [r]
     | _ => []) ++ refListF (eraseKey fs "allOf") := h
  rw [hg] at h'
  rcases List.mem_append.mp h' with h1 | h1
  · exact List.mem_append_left _ h1
  · exact List.mem_append_right _ (refListF_erase_sub fs "allOf" r h1)

theorem ptr_walk_pres {P : Json → Prop}
    (hobj : ∀ fs k v, P (.obj fs) → getField fs k = some v → P v)
    (harr : ∀ xs i x, P (.arr xs) → xs.get? i = some x → P x) :
    ∀ (parts : List String) (cur : Option Json) (v : Json),
      (∀ w, cur = some w → P w) → parts.foldl ptrStep cur = some v → P v := by
  intro parts
  induction parts with
  | nil => intro cur v hcur h; exact hcur v h
  | cons p rest ih =>
    intro cur v hcur h
    simp [List.foldl_cons] at h
    refine ih (ptrStep cur p) v ?_ h
    intro w hw
    match hcv : cur with
    | none => simp [ptrStep] at hw
    | some (.obj fs) =>
      simp [ptrStep] at hw
      exact hobj fs p w (hcur _ rfl) hw
    | some (.arr xs) =>
      have hw' : (match jsIndex p with
        | some i => xs.get? i
        | none => none) = some w := hw
      match hi : jsIndex p with
      | none => rw [hi] at hw'; cases hw'
      | some i =>
        rw [hi] at hw'
        exact harr xs i w (hcur _ rfl) hw'
    | some .null => simp [ptrStep] at hw
    | some (.bool b) => simp [ptrStep] at hw
    | some (.num n) => simp [ptrStep] at hw
    | some (.str s) => simp [ptrStep] at hw

theorem getByPointer_pres {P : Json → Prop}
    (hobj : ∀ fs k v, P (.obj fs) → getField fs k = some v → P v)
    (harr : ∀ xs i x, P (.arr xs) → xs.get? i = some x → P x) :
    ∀ (root : Json) (ptr : String) (v : Json),
      P root → getByPointer root ptr = some v → P v := by
  intro root ptr v hroot h
  unfold getByPointer at h
  by_cases hs : strLeads ptr "#/"
  · rw [if_pos hs] at h
    exact ptr_walk_pres hobj harr _ (some root) v (fun w hw => by cases hw; exact hroot) h
  · rw [if_neg hs] at h
    cases h

theorem getByPointer_jsize (root : Json) (ptr : String) (t : Json)
    (h : getByPointer root ptr = some t) : jsize t ≤ jsize root := by
  refine getByPointer_pres (P := fun v => jsize v ≤ jsize root)
    ?_ ?_ root ptr t (le_refl _) h
  · intro fs k v hle hg
    have h1 := mem_jsizeF fs k v (getField_mem fs k v hg)
    simp [jsize] at hle
    omega
  · intro xs i x hle hg
    have h1 := mem_jsizeL xs x (List.get?_mem hg)
    simp [jsize] at hle
    omega

theorem getByPointer_refsub (root : Json) (ptr : String) (t : Json)
    (h : getByPointer root ptr = some t) :
    ∀ r ∈ refList t, r ∈ refList root := by
  refine getByPointer_pres (P := fun v => ∀ r ∈ refList v, r ∈ refList root)
    ?_ ?_ root ptr t (fun r hr => hr) h
  · intro fs k v hsub hg r hr
    exact hsub r (refListF_sub_obj fs r (refListF_mem fs k v r (getField_mem fs k v hg) hr))
  · intro xs i x hsub hg r hr
    exact hsub r (refListL_mem xs x r (List.get?_mem hg) hr)

/-- Number of ref strings of the pool S not yet on the resolving stack; the
part of the fuel measure that pays for following a pointer. -/
def unres (S : Finset String) (stack : List String) : Nat :=
  (S \ stack.toFinset).card

theorem unres_push (S : Finset String) (stack : List String) (r : String)
    (hr : r ∈ S) (hs : stack.contains r = false) :
    unres S (r :: stack) + 1 ≤ unres S stack := by
  unfold unres
  have hs' : r ∉ stack := by simpa using hs
  have hnot : r ∉ stack.toFinset := by
    simpa [List.mem_toFinset] using hs'
  have hmem : r ∈ S \ stack.toFinset := Finset.mem_sdiff.mpr ⟨hr, hnot⟩
  have : S \ (r :: stack).toFinset = (S \ stack.toFinset).erase r := by
    ext x
    simp [List.toFinset_cons, Finset.mem_sdiff, Finset.mem_erase]
    tauto
  rw [this]
  rw [Finset.card_erase_of_mem hmem]
  have := Finset.card_pos.mpr ⟨r, hmem⟩
  omega

/-- Termination of the resolver: whenever the fuel covers the fragment's size
plus one full document traversal for every ref string not yet mid-resolution,
the resolver answers. The pool S collects every candidate ref string. -/
theorem deref_term (doc : Json) (S : Finset String)
    (hdoc : ∀ r ∈ refList doc, r ∈ S) :
    ∀ fuel : Nat,
    (∀ (v : Json) (stack : List String) (cache : RefCache),
       (∀ r ∈ refList v, r ∈ S) →
       jsize v + (jsize doc + 2) * unres S stack ≤ fuel →
       (deepDerefJ doc fuel stack cache v).isSome = true)
    ∧ (∀ (xs : List Json) (stack : List String) (cache : RefCache),
       (∀ r ∈ refListL xs, r ∈ S) →
       jsizeL xs + (jsize doc + 2) * unres S stack ≤ fuel →
       (derefList doc fuel stack cache xs).isSome = true)
    ∧ (∀ (fs : List (String × Json)) (stack : List String) (cache : RefCache),
       (∀ r ∈ refListF fs, r ∈ S) →
       jsizeF fs + (jsize doc + 2) * unres S stack ≤ fuel →
       (derefFields doc fuel stack cache fs).isSome = true) := by
  intro fuel
  induction fuel using Nat.strong_induction_on with
  | _ fuel IH =>
  refine ⟨?_, ?_, ?_⟩
  · -- deepDerefJ
    intro v stack cache hsub hle
    match fuel, IH with
    | 0, _ =>
      exfalso
      have := jsize_pos v
      omega
    | fuel' + 1, IH =>
    have hf' : fuel' < fuel' + 1 := Nat.lt_succ_self _
    match v, hsub, hle with
    | .null, hsub, hle => simp [deepDerefJ]
    | .bool b, hsub, hle => simp [deepDerefJ]
    | .num n, hsub, hle => simp [deepDerefJ]
    | .str s, hsub, hle => simp [deepDerefJ]
    | .arr xs, hsub, hle =>
      have hb : jsizeL xs + (jsize doc + 2) * unres S stack ≤ fuel' := by
        simp [jsize] at hle
        omega
      have h1 := (IH fuel' hf').2.1 xs stack cache (fun r hr => hsub r hr) hb
      rw [Option.isSome_iff_exists] at h1
      obtain ⟨⟨ys, c⟩, h2⟩ := h1
      simp [deepDerefJ, h2]
    | .obj fields, hsub, hle =>
      by_cases href : ∃ r, getField fields "$ref" = some (.str r)
      · obtain ⟨ref, hgf⟩ := href
        match hcf : cacheFind cache ref with
        | some base => simp [deepDerefJ, hgf, hcf]
        | none =>
          match hst : stack.contains ref with
          | true =>
            have hst' : ref ∈ stack := by simpa using hst
            simp [deepDerefJ, hgf, hcf, hst']
          | false =>
            have hst' : ref ∉ stack := by simpa using hst
            match hgp : getByPointer doc ref with
            | none => simp [deepDerefJ, hgf, hcf, hst', hgp]
            | some t =>
              have hsubt : ∀ r ∈ refList t, r ∈ S := fun r hr =>
                hdoc r (getByPointer_refsub doc ref t hgp r hr)
              have hjt := getByPointer_jsize doc ref t hgp
              have hrS : ref ∈ S := hsub ref (ref_self_mem fields ref hgf)
              have hpush := unres_push S stack ref hrS hst
              have hmul : (jsize doc + 2) * (unres S (ref :: stack) + 1)
                  ≤ (jsize doc + 2) * unres S stack :=
                Nat.mul_le_mul_left _ hpush
              have hexp : (jsize doc + 2) * (unres S (ref :: stack) + 1)
                  = (jsize doc + 2) * unres S (ref :: stack) + (jsize doc + 2) := by
                ring
              have hjv : 1 ≤ jsize (.obj fields) := jsize_pos _
              have hbound : jsize t + (jsize doc + 2) * unres S (ref :: stack)
                  ≤ fuel' := by
                rw [hexp] at hmul
                omega
              have h1 := (IH fuel' hf').1 t (ref :: stack) cache hsubt hbound
              rw [Option.isSome_iff_exists] at h1
              obtain ⟨⟨rt, c1⟩, h2⟩ := h1
              simp [deepDerefJ, hgf, hcf, hst', hgp, h2]
      · have hred : deepDerefJ doc (fuel' + 1) stack cache (.obj fields) =
            (match getField fields "allOf" with
             | some (.arr parts) =>
               match derefList doc fuel' stack cache parts with
               | none => none
               | some (ps, c1) =>
                 match deepDerefJ doc fuel' stack c1 (.obj (eraseKey fields "allOf")) with
                 | none => none
                 | some (rrest, c2) =>
                   some (merge1 (ps.foldl merge1 (.obj [])) rrest, c2)
             | _ =>
               match derefFields doc fuel' stack cache fields with
               | none => none
               | some (out, c) => some (.obj out, c)) := by
          rcases hgf : getField fields "$ref" with _ | w
          · simp [deepDerefJ, hgf]
          · cases w with
            | str r => exact absurd ⟨r, hgf⟩ href
            | null => simp [deepDerefJ, hgf]
            | bool b => simp [deepDerefJ, hgf]
            | num n => simp [deepDerefJ, hgf]
            | arr xs => simp [deepDerefJ, hgf]
            | obj fs2 => simp [deepDerefJ, hgf]
        rw [hred]
        by_cases hao : ∃ parts, getField fields "allOf" = some (.arr parts)
        · obtain ⟨parts, haof⟩ := hao
          have hmemA := getField_mem fields "allOf" (.arr parts) haof
          have hszA := mem_jsizeF fields "allOf" (.arr parts) hmemA
          have hsubP : ∀ r ∈ refListL parts, r ∈ S := fun r hr =>
            hsub r (refListF_sub_obj fields r
              (refListF_mem fields "allOf" (.arr parts) r hmemA hr))
          have hbP : jsizeL parts + (jsize doc + 2) * unres S stack ≤ fuel' := by
            simp [jsize] at hle hszA
            omega
          have h1 := (IH fuel' hf').2.1 parts stack cache hsubP hbP
          rw [Option.isSome_iff_exists] at h1
          obtain ⟨⟨ps, c1⟩, h2⟩ := h1
          have hsubR : ∀ r ∈ refList (.obj (eraseKey fields "allOf")), r ∈ S :=
            fun r hr => hsub r (refList_obj_erase_allOf fields r hr)
          have herase := getField_jsizeF_erase fields "allOf" (.arr parts) haof
          have hbR : jsize (.obj (eraseKey fields "allOf"))
              + (jsize doc + 2) * unres S stack ≤ fuel' := by
            simp [jsize] at hle herase ⊢
            omega
          have h3 := (IH fuel' hf').1 (.obj (eraseKey fields "allOf")) stack c1 hsubR hbR
          rw [Option.isSome_iff_exists] at h3
          obtain ⟨⟨rrest, c2⟩, h4⟩ := h3
          simp [haof, h2, h4]
        · have hsubF : ∀ r ∈ refListF fields, r ∈ S := fun r hr =>
            hsub r (refListF_sub_obj fields r hr)
          have hbF : jsizeF fields + (jsize doc + 2) * unres S stack ≤ fuel' := by
            simp [jsize] at hle
            omega
          have h1 := (IH fuel' hf').2.2 fields stack cache hsubF hbF
          rw [Option.isSome_iff_exists] at h1
          obtain ⟨⟨out, c⟩, h2⟩ := h1
          rcases haof : getField fields "allOf" with _ | w
          · simp [h2]
          · cases w with
            | arr ps => exact absurd ⟨ps, haof⟩ hao
            | null => simp [h2]
            | bool b => simp [h2]
            | num n => simp [h2]
            | str s => simp [h2]
            | obj fs2 => simp [h2]
  · -- derefList
    intro xs stack cache hsub hle
    match xs, hsub, hle with
    | [], hsub, hle => simp [derefList]
    | x :: rest, hsub, hle =>
      match fuel, IH with
      | 0, _ =>
        exfalso
        have h1 := jsize_pos x
        have h2 := jsizeL_pos rest
        simp [jsizeL] at hle
      | fuel' + 1, IH =>
        have hf' : fuel' < fuel' + 1 := Nat.lt_succ_self _
        have hsubx : ∀ r ∈ refList x, r ∈ S := fun r hr =>
          hsub r (List.mem_append_left _ hr)
        have hsubrest : ∀ r ∈ refListL rest, r ∈ S := fun r hr =>
          hsub r (List.mem_append_right _ hr)
        have h1 := jsize_pos x
        have h2 := jsizeL_pos rest
        simp [jsizeL] at hle
        have hbx : jsize x + (jsize doc + 2) * unres S stack ≤ fuel' := by omega
        have hbr : jsizeL rest + (jsize doc + 2) * unres S stack ≤ fuel' := by omega
        have hx := (IH fuel' hf').1 x stack cache hsubx hbx
        rw [Option.isSome_iff_exists] at hx
        obtain ⟨⟨y, c1⟩, hxe⟩ := hx
        have hr := (IH fuel' hf').2.1 rest stack c1 hsubrest hbr
        rw [Option.isSome_iff_exists] at hr
        obtain ⟨⟨ys, c2⟩, hre⟩ := hr
        simp [derefList, hxe, hre]
  · -- derefFields
    intro fs stack cache hsub hle
    match fs, hsub, hle with
    | [], hsub, hle => simp [derefFields]
    | (k, v) :: rest, hsub, hle =>
      match fuel, IH with
      | 0, _ =>
        exfalso
        have h1 := jsize_pos v
        have h2 := jsizeF_pos rest
        simp [jsizeF] at hle
      | fuel' + 1, IH =>
        have hf' : fuel' < fuel' + 1 := Nat.lt_succ_self _
        have hsubx : ∀ r ∈ refList v, r ∈ S := fun r hr =>
          hsub r (List.mem_append_left _ hr)
        have hsubrest : ∀ r ∈ refListF rest, r ∈ S := fun r hr =>
          hsub r (List.mem_append_right _ hr)
        have h1 := jsize_pos v
        have h2 := jsizeF_pos rest
        simp [jsizeF] at hle
        have hbx : jsize v + (jsize doc + 2) * unres S stack ≤ fuel' := by omega
        have hbr : jsizeF rest + (jsize doc + 2) * unres S stack ≤ fuel' := by omega
        have hx := (IH fuel' hf').1 v stack cache hsubx hbx
        rw [Option.isSome_iff_exists] at hx
        obtain ⟨⟨w, c1⟩, hxe⟩ := hx
        have hr := (IH fuel' hf').2.2 rest stack c1 hsubrest hbr
        rw [Option.isSome_iff_exists] at hr
        obtain ⟨⟨ws, c2⟩, hre⟩ := hr
        simp [derefFields, hxe, hre]

/-- Totality of the resolver on every document and fragment: some fuel always
suffices, i.e. the source recursion terminates. -/
theorem deepDeref_total (doc v : Json) :
    ∃ (fuel : Nat) (r : Json) (c : RefCache),
      deepDerefJ doc fuel [] [] v = some (r, c) := by
  set S : Finset String := (refList doc ++ refList v).toFinset with hS
  have hdoc : ∀ r ∈ refList doc, r ∈ S := by
    intro r hr
    rw [hS]
    exact List.mem_toFinset.mpr (List.mem_append_left _ hr)
  have hv : ∀ r ∈ refList v, r ∈ S := by
    intro r hr
    rw [hS]
    exact List.mem_toFinset.mpr (List.mem_append_right _ hr)
  set fuel := jsize v + (jsize doc + 2) * unres S [] with hfuel
  have h := (deref_term doc S hdoc fuel).1 v [] [] hv (le_refl _)
  rw [Option.isSome_iff_exists] at h
  obtain ⟨⟨r, c⟩, h2⟩ := h
  exact ⟨fuel, r, c, h2⟩

/-- C2 amended: resolution of pointer-cyclic schemas terminates (indeed the
resolver terminates on every document and fragment), and the re-entrant
occurrence comes back as a sentinel equal to the original fragment plus a
marker binding, whose key is __circularRef__ (value true). The concrete cyclic
document docCyc (A's property references B, which references back to A)
resolves to cycExpected, whose innermost object is exactly the re-entrant
fragment with the marker appended. -/
theorem c2_amended_cycle_terminates_with_sentinel :
    (∀ (doc v : Json), ∃ (fuel : Nat) (r : Json) (c : RefCache),
        deepDerefJ doc fuel [] [] v = some (r, c))
    ∧ (deepDerefJ docCyc 50 [] []
        (.obj [("$ref", .str "#/components/schemas/A")])).map (fun p => p.1)
      = some cycExpected
    ∧ Json.obj (setKey [("$ref", .str "#/components/schemas/A")]
        "__circularRef__" (.bool true))
      = .obj [("$ref", .str "#/components/schemas/A"),
              ("__circularRef__", .bool true)] :=
  ⟨deepDeref_total, by rfl, by rfl⟩

theorem okOutL_iff : ∀ xs : List Json, okOutL xs = true ↔ ∀ x ∈ xs, okOut x = true := by
  intro xs
  induction xs with
  | nil => simp [okOutL]
  | cons x rest ih => simp [okOutL, ih]

theorem okOutF_iff : ∀ fs : List (String × Json),
    okOutF fs = true ↔ ∀ p ∈ fs, okOut p.2 = true := by
  intro fs
  induction fs with
  | nil => simp [okOutF]
  | cons p rest ih =>
    obtain ⟨k, v⟩ := p
    simp [okOutF, ih]

theorem nodupHL_iff : ∀ xs : List Json, nodupHL xs = true ↔ ∀ x ∈ xs, nodupH x = true := by
  intro xs
  induction xs with
  | nil => simp [nodupHL]
  | cons x rest ih => simp [nodupHL, ih]

theorem nodupHF_iff : ∀ fs : List (String × Json),
    nodupHF fs = true ↔ ∀ p ∈ fs, nodupH p.2 = true := by
  intro fs
  induction fs with
  | nil => simp [nodupHF]
  | cons p rest ih =>
    obtain ⟨k, v⟩ := p
    simp [nodupHF, ih]

theorem refCircFreeL_iff : ∀ xs : List Json,
    refCircFreeL xs = true ↔ ∀ x ∈ xs, refCircFree x = true := by
  intro xs
  induction xs with
  | nil => simp [refCircFreeL]
  | cons x rest ih => simp [refCircFreeL, ih]

theorem refCircFreeF_iff : ∀ fs : List (String × Json),
    refCircFreeF fs = true ↔ ∀ p ∈ fs, refCircFree p.2 = true := by
  intro fs
  induction fs with
  | nil => simp [refCircFreeF]
  | cons p rest ih =>
    obtain ⟨k, v⟩ := p
    simp [refCircFreeF, ih]

theorem wfRefsL_iff : ∀ xs : List Json,
    wfRefsL xs = true ↔ ∀ x ∈ xs, wfRefs x = true := by
  intro xs
  induction xs with
  | nil => simp [wfRefsL]
  | cons x rest ih => simp [wfRefsL, ih]

theorem wfRefsF_iff : ∀ fs : List (String × Json),
    wfRefsF fs = true ↔ ∀ p ∈ fs, wfRefs p.2 = true := by
  intro fs
  induction fs with
  | nil => simp [wfRefsF]
  | cons p rest ih =>
    obtain ⟨k, v⟩ := p
    simp [wfRefsF, ih]


theorem hasKeyF_false_iff : ∀ (fs : List (String × Json)) (k : String),
    hasKeyF fs k = false ↔ ∀ p ∈ fs, p.1 ≠ k := by
  intro fs k
  simp [hasKeyF]

theorem getField_none_iff : ∀ (fs : List (String × Json)) (k : String),
    getField fs k = none ↔ hasKeyF fs k = false := by
  intro fs k
  induction fs with
  | nil => simp [getField, hasKeyF]
  | cons p rest ih =>
    obtain ⟨k1, v⟩ := p
    by_cases h : k1 == k
    · constructor
      · intro hg
        simp [getField, h] at hg
      · intro hk
        rw [hasKeyF_false_iff] at hk
        exact absurd (by simpa using h) (hk (k1, v) (List.mem_cons_self _ _))
    · rw [show getField ((k1, v) :: rest) k = getField rest k by simp [getField, h]]
      rw [ih]
      constructor
      · intro hk
        rw [hasKeyF_false_iff] at hk ⊢
        intro p hp
        rcases List.mem_cons.mp hp with h1 | h1
        · subst h1
          simpa using h
        · exact hk p h1
      · intro hk
        rw [hasKeyF_false_iff] at hk ⊢
        intro p hp
        exact hk p (List.mem_cons_of_mem _ hp)

theorem getField_setKey_self : ∀ (fs : List (String × Json)) (k : String) (v : Json),
    getField (setKey fs k v) k = some v := by
  intro fs k v
  induction fs with
  | nil => simp [setKey, getField]
  | cons p rest ih =>
    obtain ⟨k1, w⟩ := p
    by_cases h : k1 == k
    · simp [setKey, h, getField]
    · simp [setKey, h, getField]
      exact ih

theorem getField_setKey_ne : ∀ (fs : List (String × Json)) (k key : String) (v : Json),
    k ≠ key → getField (setKey fs key v) k = getField fs k := by
  intro fs k key v hne
  induction fs with
  | nil =>
    have : (key == k) = false := by
      simp
      exact fun h => hne h.symm
    simp [setKey, getField, this]
  | cons p rest ih =>
    obtain ⟨k1, w⟩ := p
    by_cases h : k1 == key
    · have hk1 : k1 = key := by simpa using h
      subst hk1
      have h2 : (k1 == k) = false := by
        simp
        exact fun hh => hne hh.symm
      simp [setKey, getField, h2]
    · by_cases h2 : k1 == k
      · simp [setKey, h, getField, h2]
      · simp [setKey, h, getField, h2]
        exact ih

theorem mem_setKey : ∀ (fs : List (String × Json)) (k : String) (v : Json) (p : String × Json),
    p ∈ setKey fs k v → p ∈ fs ∨ p = (k, v) := by
  intro fs k v p
  induction fs with
  | nil =>
    intro h
    simp [setKey] at h
    exact Or.inr h
  | cons q rest ih =>
    obtain ⟨k1, w⟩ := q
    intro h
    by_cases hk : k1 == k
    · simp [setKey, hk] at h
      rcases h with h | h
      · exact Or.inr (by simp [h])
      · exact Or.inl (List.mem_cons_of_mem _ h)
    · simp [setKey, hk] at h
      rcases h with h | h
      · exact Or.inl (by simp [h])
      · rcases ih h with h1 | h1
        · exact Or.inl (List.mem_cons_of_mem _ h1)
        · exact Or.inr h1

theorem hasKeyF_setKey : ∀ (fs : List (String × Json)) (key : String) (v : Json) (k : String),
    hasKeyF (setKey fs key v) k = (hasKeyF fs k || (key == k)) := by
  intro fs key v k
  induction fs with
  | nil => simp [setKey, hasKeyF]
  | cons p rest ih =>
    obtain ⟨k1, w⟩ := p
    by_cases h : k1 == key
    · have hk1 : k1 = key := by simpa using h
      subst hk1
      have hs : setKey ((k1, w) :: rest) k1 v = (k1, v) :: rest := by simp [setKey]
      rw [hs]
      cases h1 : (k1 == k) <;> cases h2 : rest.any (fun p => p.1 == k) <;>
        simp [hasKeyF, h1, h2]
    · simp [setKey, h, hasKeyF]
      rw [show (setKey rest key v).any (fun p => p.1 == k)
          = hasKeyF (setKey rest key v) k from rfl]
      rw [ih]
      rw [show rest.any (fun p => p.1 == k) = hasKeyF rest k from rfl]
      cases hasKeyF rest k <;> cases (k1 == k) <;> cases (key == k) <;> rfl

theorem keysNodup_setKey : ∀ (fs : List (String × Json)) (key : String) (v : Json),
    keysNodup fs = true → keysNodup (setKey fs key v) = true := by
  intro fs key v
  induction fs with
  | nil => intro h; simp [setKey, keysNodup, hasKeyF]
  | cons p rest ih =>
    obtain ⟨k1, w⟩ := p
    intro h
    simp [keysNodup] at h
    obtain ⟨h1, h2⟩ := h
    by_cases hk : k1 == key
    · have hk1 : k1 = key := by simpa using hk
      subst hk1
      simp [setKey, keysNodup]
      exact ⟨h1, h2⟩
    · simp [setKey, hk, keysNodup]
      constructor
      · rw [hasKeyF_setKey]
        simp
        constructor
        · exact h1
        · simp at hk
          exact fun hh => hk hh.symm
      · exact ih h2

theorem hasKeyF_eraseKey_self : ∀ (fs : List (String × Json)) (k : String),
    hasKeyF (eraseKey fs k) k = false := by
  intro fs k
  rw [hasKeyF_false_iff]
  intro p hp
  unfold eraseKey at hp
  have := List.of_mem_filter hp
  simpa using this

theorem mem_eraseKey : ∀ (fs : List (String × Json)) (k : String) (p : String × Json),
    p ∈ eraseKey fs k → p ∈ fs := by
  intro fs k p hp
  exact List.mem_of_mem_filter hp

theorem hasKeyF_eraseKey_imp : ∀ (fs : List (String × Json)) (k k' : String),
    hasKeyF (eraseKey fs k') k = true → hasKeyF fs k = true := by
  intro fs k k' h
  unfold hasKeyF at h ⊢
  obtain ⟨p, hp, hpk⟩ := List.any_eq_true.mp h
  exact List.any_eq_true.mpr ⟨p, mem_eraseKey fs k' p hp, hpk⟩

theorem keysNodup_eraseKey : ∀ (fs : List (String × Json)) (k : String),
    keysNodup fs = true → keysNodup (eraseKey fs k) = true := by
  intro fs k
  induction fs with
  | nil => intro h; simpa [eraseKey] using h
  | cons p rest ih =>
    obtain ⟨k1, w⟩ := p
    intro h
    simp [keysNodup] at h
    obtain ⟨h1, h2⟩ := h
    by_cases hk : k1 = k
    · subst hk
      rw [eraseKey_cons_eq]
      exact ih h2
    · rw [eraseKey_cons_ne k1 k w rest hk]
      simp only [keysNodup, Bool.and_eq_true, Bool.not_eq_true']
      refine ⟨?_, ih h2⟩
      cases hkk : hasKeyF (eraseKey rest k) k1 with
      | false => rfl
      | true => exact absurd (hasKeyF_eraseKey_imp rest k1 k hkk) (by simp [h1])

theorem mem_dedupPrims : ∀ (l seen : List Json) (x : Json),
    x ∈ dedupPrims l seen → x ∈ l := by
  intro l
  induction l with
  | nil => intro seen x h; simpa [dedupPrims] using h
  | cons y rest ih =>
    intro seen x h
    unfold dedupPrims at h
    by_cases hc : (isPrim y && seen.any (primEq y)) = true
    · rw [if_pos hc] at h
      exact List.mem_cons_of_mem _ (ih seen x h)
    · rw [if_neg hc] at h
      rcases List.mem_cons.mp h with h1 | h1
      · exact h1 ▸ List.mem_cons_self _ _
      · exact List.mem_cons_of_mem _ (ih (y :: seen) x h1)

theorem rcf_okOut : ∀ v, refCircFree v = true → okOut v = true := by
  intro v
  induction v using json_ind with
  | hnull => intro h; rfl
  | hbool b => intro h; rfl
  | hnum n => intro h; rfl
  | hstr s => intro h; rfl
  | harr xs ih =>
    intro h
    simp only [refCircFree] at h
    simp only [okOut]
    rw [okOutL_iff]
    intro x hx
    exact ih x hx ((refCircFreeL_iff xs).mp h x hx)
  | hobj fs ih =>
    intro h
    simp only [refCircFree, Bool.and_eq_true] at h
    obtain ⟨⟨h1, h2⟩, h3⟩ := h
    simp only [okOut, Bool.or_eq_true, Bool.and_eq_true]
    right
    refine ⟨⟨h1, h2⟩, ?_⟩
    rw [okOutF_iff]
    intro p hp
    exact ih p hp ((refCircFreeF_iff fs).mp h3 p hp)

theorem rcf_wf : ∀ v, refCircFree v = true → wfRefs v = true := by
  intro v
  induction v using json_ind with
  | hnull => intro h; rfl
  | hbool b => intro h; rfl
  | hnum n => intro h; rfl
  | hstr s => intro h; rfl
  | harr xs ih =>
    intro h
    simp only [refCircFree] at h
    simp only [wfRefs]
    rw [wfRefsL_iff]
    intro x hx
    exact ih x hx ((refCircFreeL_iff xs).mp h x hx)
  | hobj fs ih =>
    intro h
    simp only [refCircFree, Bool.and_eq_true] at h
    obtain ⟨⟨h1, h2⟩, h3⟩ := h
    have h1' : hasKeyF fs "$ref" = false := by simpa using h1
    have hnone : getField fs "$ref" = none := (getField_none_iff fs "$ref").mpr h1'
    simp only [wfRefs, hnone, Bool.and_eq_true]
    refine ⟨h2, ?_⟩
    rw [wfRefsF_iff]
    intro p hp
    exact ih p hp ((refCircFreeF_iff fs).mp h3 p hp)

theorem isFlaggedTrue_iff : ∀ fs : List (String × Json),
    isFlaggedTrue fs = true ↔ getField fs "__circularRef__" = some (.bool true) := by
  intro fs
  unfold isFlaggedTrue
  rcases hg : getField fs "__circularRef__" with _ | w
  · simp
  · cases w with
    | bool b => cases b <;> simp
    | null => simp
    | num n => simp
    | str s => simp
    | arr xs => simp
    | obj fs2 => simp

theorem merge1_bool_right : ∀ (av : Json) (b : Bool),
    merge1 av (.bool b) = .bool b := by
  intro av b
  cases av <;> rfl

theorem mergeFields_mem : ∀ (l fa acc : List (String × Json)) (p : String × Json),
    p ∈ mergeFields fa acc l →
    p ∈ acc ∨ ∃ q ∈ l, p.1 = q.1 ∧
      (p.2 = q.2 ∨ ∃ av, getField fa p.1 = some av ∧ p.2 = merge1 av q.2) := by
  intro l fa
  induction l with
  | nil =>
    intro acc p h
    exact Or.inl (by simpa [mergeFields] using h)
  | cons q rest ih =>
    intro acc p h
    obtain ⟨k, v⟩ := q
    by_cases hk : k == "allOf"
    · rw [show mergeFields fa acc ((k, v) :: rest) = mergeFields fa acc rest by
        simp [mergeFields, hk]] at h
      rcases ih acc p h with h1 | ⟨q, hq, h2⟩
      · exact Or.inl h1
      · exact Or.inr ⟨q, List.mem_cons_of_mem _ hq, h2⟩
    · rw [show mergeFields fa acc ((k, v) :: rest)
          = mergeFields fa (setKey acc k (mergeOpt1 (getField fa k) v)) rest by
        simp [mergeFields, hk]; rfl] at h
      rcases ih _ p h with h1 | ⟨q, hq, h2⟩
      · rcases mem_setKey acc k (mergeOpt1 (getField fa k) v) p h1 with h3 | h3
        · exact Or.inl h3
        · subst h3
          refine Or.inr ⟨(k, v), List.mem_cons_self _ _, rfl, ?_⟩
          unfold mergeOpt1
          rcases hg : getField fa k with _ | av
          · exact Or.inl rfl
          · exact Or.inr ⟨av, rfl, rfl⟩
      · exact Or.inr ⟨q, List.mem_cons_of_mem _ hq, h2⟩

theorem mergeFields_hasKey : ∀ (l fa acc : List (String × Json)) (k : String),
    hasKeyF (mergeFields fa acc l) k = true →
    hasKeyF acc k = true ∨ hasKeyF l k = true := by
  intro l fa
  induction l with
  | nil =>
    intro acc k h
    exact Or.inl (by simpa [mergeFields] using h)
  | cons q rest ih =>
    intro acc k h
    obtain ⟨k0, v⟩ := q
    by_cases hk : k0 == "allOf"
    · rw [show mergeFields fa acc ((k0, v) :: rest) = mergeFields fa acc rest by
        simp [mergeFields, hk]] at h
      rcases ih acc k h with h1 | h1
      · exact Or.inl h1
      · right
        simp [hasKeyF] at h1 ⊢
        tauto
    · rw [show mergeFields fa acc ((k0, v) :: rest)
          = mergeFields fa (setKey acc k0 (mergeOpt1 (getField fa k0) v)) rest by
        simp [mergeFields, hk]; rfl] at h
      rcases ih _ k h with h1 | h1
      · rw [hasKeyF_setKey] at h1
        rcases Bool.or_eq_true_iff.mp h1 with h2 | h2
        · exact Or.inl h2
        · right
          simp [hasKeyF]
          left
          simpa using h2
      · right
        simp [hasKeyF] at h1 ⊢
        tauto

theorem mergeFields_getField_absent : ∀ (l fa acc : List (String × Json)) (k : String),
    hasKeyF l k = false → getField (mergeFields fa acc l) k = getField acc k := by
  intro l fa
  induction l with
  | nil => intro acc k h; simp [mergeFields]
  | cons q rest ih =>
    intro acc k h
    obtain ⟨k0, v⟩ := q
    rw [hasKeyF_false_iff] at h
    have hk0 : k0 ≠ k := h (k0, v) (List.mem_cons_self _ _)
    have hrest : hasKeyF rest k = false := by
      rw [hasKeyF_false_iff]
      intro p hp
      exact h p (List.mem_cons_of_mem _ hp)
    by_cases hk : k0 == "allOf"
    · rw [show mergeFields fa acc ((k0, v) :: rest) = mergeFields fa acc rest by
        simp [mergeFields, hk]]
      exact ih acc k hrest
    · rw [show mergeFields fa acc ((k0, v) :: rest)
          = mergeFields fa (setKey acc k0 (mergeOpt1 (getField fa k0) v)) rest by
        simp [mergeFields, hk]; rfl]
      rw [ih _ k hrest]
      exact getField_setKey_ne acc k k0 _ (fun hh => hk0 hh.symm)

theorem mergeFields_getField_hit : ∀ (l fa acc : List (String × Json)) (k : String) (v : Json),
    keysNodup l = true → getField l k = some v → (k == "allOf") = false →
    getField (mergeFields fa acc l) k = some (mergeOpt1 (getField fa k) v) := by
  intro l fa
  induction l with
  | nil => intro acc k v hnd h; simp [getField] at h
  | cons q rest ih =>
    intro acc k v hnd h hka
    obtain ⟨k0, w⟩ := q
    simp only [keysNodup, Bool.and_eq_true, Bool.not_eq_true'] at hnd
    obtain ⟨hnd1, hnd2⟩ := hnd
    by_cases hk0 : k0 == k
    · have hk0' : k0 = k := by simpa using hk0
      subst hk0'
      have hw : w = v := by simpa [getField] using h
      subst hw
      have hkall : (k0 == "allOf") = false := hka
      rw [show mergeFields fa acc ((k0, w) :: rest)
          = mergeFields fa (setKey acc k0 (mergeOpt1 (getField fa k0) w)) rest by
        simp [mergeFields, hkall]; rfl]
      rw [mergeFields_getField_absent rest fa _ k0 hnd1]
      exact getField_setKey_self acc k0 _
    · have hg : getField rest k = some v := by
        simpa [getField, hk0] using h
      by_cases hk : k0 == "allOf"
      · rw [show mergeFields fa acc ((k0, w) :: rest) = mergeFields fa acc rest by
          simp [mergeFields, hk]]
        exact ih acc k v hnd2 hg hka
      · rw [show mergeFields fa acc ((k0, w) :: rest)
            = mergeFields fa (setKey acc k0 (mergeOpt1 (getField fa k0) w)) rest by
          simp [mergeFields, hk]; rfl]
        exact ih _ k v hnd2 hg hka

theorem mergeFields_keysNodup : ∀ (l fa acc : List (String × Json)),
    keysNodup acc = true → keysNodup (mergeFields fa acc l) = true := by
  intro l fa
  induction l with
  | nil => intro acc h; simpa [mergeFields] using h
  | cons q rest ih =>
    intro acc h
    obtain ⟨k0, v⟩ := q
    by_cases hk : k0 == "allOf"
    · rw [show mergeFields fa acc ((k0, v) :: rest) = mergeFields fa acc rest by
        simp [mergeFields, hk]]
      exact ih acc h
    · rw [show mergeFields fa acc ((k0, v) :: rest)
          = mergeFields fa (setKey acc k0 (mergeOpt1 (getField fa k0) v)) rest by
        simp [mergeFields, hk]; rfl]
      exact ih _ (keysNodup_setKey acc k0 _ h)

theorem merge1_nodup : ∀ (b a : Json), nodupH a = true → nodupH b = true →
    nodupH (merge1 a b) = true := by
  intro b
  induction b using json_ind with
  | hnull => intro a ha hb; cases a <;> simpa [merge1] using ha
  | hbool bb => intro a ha hb; cases a <;> simp [merge1, nodupH] <;> assumption
  | hnum n => intro a ha hb; cases a <;> simp [merge1, nodupH] <;> assumption
  | hstr s => intro a ha hb; cases a <;> simp [merge1, nodupH] <;> assumption
  | harr ys ih =>
    intro a ha hb
    cases a with
    | null => simpa [merge1] using hb
    | bool ab => simpa [merge1] using hb
    | num an => simpa [merge1] using hb
    | str as => simpa [merge1] using hb
    | obj fa => simpa [merge1] using hb
    | arr xs =>
      simp only [merge1, nodupH]
      rw [nodupHL_iff]
      intro x hx
      have hx2 := mem_dedupPrims _ [] x hx
      rcases List.mem_append.mp hx2 with h1 | h1
      · exact (nodupHL_iff xs).mp (by simpa [nodupH] using ha) x h1
      · exact (nodupHL_iff ys).mp (by simpa [nodupH] using hb) x h1
  | hobj fb ih =>
    intro a ha hb
    cases a with
    | null => simpa [merge1] using hb
    | bool ab => simpa [merge1] using hb
    | num an => simpa [merge1] using hb
    | str as => simpa [merge1] using hb
    | arr xs => simpa [merge1] using hb
    | obj fa =>
      simp only [merge1, nodupH, Bool.and_eq_true]
      have hand : keysNodup fa = true ∧ nodupHF fa = true := by
        simpa [nodupH] using ha
      have hbnd : keysNodup fb = true ∧ nodupHF fb = true := by
        simpa [nodupH] using hb
      constructor
      · exact mergeFields_keysNodup fb fa fa hand.1
      · rw [nodupHF_iff]
        intro p hp
        rcases mergeFields_mem fb fa fa p hp with h1 | ⟨q, hq, hk, h2⟩
        · exact (nodupHF_iff fa).mp hand.2 p h1
        · rcases h2 with h2 | ⟨av, hav, h2⟩
          · rw [h2]
            exact (nodupHF_iff fb).mp hbnd.2 q hq
          · rw [h2]
            refine ih q hq av ?_ ?_
            · exact (nodupHF_iff fa).mp hand.2 _ (getField_mem fa p.1 av hav)
            · exact (nodupHF_iff fb).mp hbnd.2 q hq

theorem merge1_ok : ∀ (b a : Json), okOut a = true → nodupH a = true →
    okOut b = true → nodupH b = true → okOut (merge1 a b) = true := by
  intro b
  induction b using json_ind with
  | hnull => intro a ha hna hb hnb; cases a <;> simpa [merge1] using ha
  | hbool bb => intro a ha hna hb hnb; cases a <;> simp [merge1, okOut] <;> assumption
  | hnum n => intro a ha hna hb hnb; cases a <;> simp [merge1, okOut] <;> assumption
  | hstr s => intro a ha hna hb hnb; cases a <;> simp [merge1, okOut] <;> assumption
  | harr ys ih =>
    intro a ha hna hb hnb
    cases a with
    | null => simpa [merge1] using hb
    | bool ab => simpa [merge1] using hb
    | num an => simpa [merge1] using hb
    | str as => simpa [merge1] using hb
    | obj fa => simpa [merge1] using hb
    | arr xs =>
      simp only [merge1, okOut]
      rw [okOutL_iff]
      intro x hx
      have hx2 := mem_dedupPrims _ [] x hx
      rcases List.mem_append.mp hx2 with h1 | h1
      · exact (okOutL_iff xs).mp (by simpa [okOut] using ha) x h1
      · exact (okOutL_iff ys).mp (by simpa [okOut] using hb) x h1
  | hobj fb ih =>
    intro a ha hna hb hnb
    cases a with
    | null => simpa [merge1] using hb
    | bool ab => simpa [merge1] using hb
    | num an => simpa [merge1] using hb
    | str as => simpa [merge1] using hb
    | arr xs => simpa [merge1] using hb
    | obj fa =>
      simp only [merge1]
      have hand : keysNodup fa = true ∧ nodupHF fa = true := by
        simpa [nodupH] using hna
      have hbnd : keysNodup fb = true ∧ nodupHF fb = true := by
        simpa [nodupH] using hnb
      have hA : isFlaggedTrue fa = true ∨
          (hasKeyF fa "$ref" = false ∧ hasKeyF fa "__circularRef__" = false
            ∧ okOutF fa = true) := by
        rcases (by simpa [okOut] using ha : isFlaggedTrue fa = true ∨
            (hasKeyF fa "$ref" = false ∧ hasKeyF fa "__circularRef__" = false)
              ∧ okOutF fa = true) with h | ⟨⟨h1, h2⟩, h3⟩
        · exact Or.inl h
        · exact Or.inr ⟨h1, h2, h3⟩
      have hB : isFlaggedTrue fb = true ∨
          (hasKeyF fb "$ref" = false ∧ hasKeyF fb "__circularRef__" = false
            ∧ okOutF fb = true) := by
        rcases (by simpa [okOut] using hb : isFlaggedTrue fb = true ∨
            (hasKeyF fb "$ref" = false ∧ hasKeyF fb "__circularRef__" = false)
              ∧ okOutF fb = true) with h | ⟨⟨h1, h2⟩, h3⟩
        · exact Or.inl h
        · exact Or.inr ⟨h1, h2, h3⟩
      rcases hB with hBf | ⟨hb1, hb2, hb3⟩
      · -- b flagged: the merged object keeps the true marker coming from b
        have hgb := (isFlaggedTrue_iff fb).mp hBf
        have hget := mergeFields_getField_hit fb fa fa "__circularRef__"
          (.bool true) hbnd.1 hgb (by decide)
        have hmv : ∀ o : Option Json, mergeOpt1 o (.bool true) = .bool true := by
          intro o
          rcases o with _ | av
          · rfl
          · exact merge1_bool_right av true
        have : getField (mergeFields fa fa fb) "__circularRef__" = some (.bool true) := by
          rw [hget, hmv]
        simp only [okOut, Bool.or_eq_true]
        exact Or.inl ((isFlaggedTrue_iff _).mpr this)
      · rcases hA with hAf | ⟨ha1, ha2, ha3⟩
        · -- a flagged, b unflagged: the marker of a survives untouched
          have hga := (isFlaggedTrue_iff fa).mp hAf
          have : getField (mergeFields fa fa fb) "__circularRef__"
              = some (.bool true) := by
            rw [mergeFields_getField_absent fb fa fa "__circularRef__" hb2]
            exact hga
          simp only [okOut, Bool.or_eq_true]
          exact Or.inl ((isFlaggedTrue_iff _).mpr this)
        · -- neither flagged: the merged object has no marker and no ref
          have hnoc : hasKeyF (mergeFields fa fa fb) "__circularRef__" = false := by
            cases hc : hasKeyF (mergeFields fa fa fb) "__circularRef__" with
            | false => rfl
            | true =>
              rcases mergeFields_hasKey fb fa fa _ hc with h | h
              · rw [ha2] at h; cases h
              · rw [hb2] at h; cases h
          have hnor : hasKeyF (mergeFields fa fa fb) "$ref" = false := by
            cases hc : hasKeyF (mergeFields fa fa fb) "$ref" with
            | false => rfl
            | true =>
              rcases mergeFields_hasKey fb fa fa _ hc with h | h
              · rw [ha1] at h; cases h
              · rw [hb1] at h; cases h
          have hflag : isFlaggedTrue (mergeFields fa fa fb) = false := by
            cases hc : isFlaggedTrue (mergeFields fa fa fb) with
            | false => rfl
            | true =>
              have := (isFlaggedTrue_iff _).mp hc
              have h2 : hasKeyF (mergeFields fa fa fb) "__circularRef__" = true := by
                cases hk : hasKeyF (mergeFields fa fa fb) "__circularRef__" with
                | true => rfl
                | false =>
                  rw [(getField_none_iff _ _).mpr hk] at this
                  cases this
              rw [hnoc] at h2
              cases h2
          simp only [okOut, Bool.or_eq_true, Bool.and_eq_true, Bool.not_eq_true']
          right
          refine ⟨⟨hnor, hnoc⟩, ?_⟩
          rw [okOutF_iff]
          intro p hp
          rcases mergeFields_mem fb fa fa p hp with h1 | ⟨q, hq, hk, h2⟩
          · exact (okOutF_iff fa).mp ha3 p h1
          · rcases h2 with h2 | ⟨av, hav, h2⟩
            · rw [h2]
              exact (okOutF_iff fb).mp hb3 q hq
            · rw [h2]
              refine ih q hq av ?_ ?_ ?_ ?_
              · exact (okOutF_iff fa).mp ha3 _ (getField_mem fa p.1 av hav)
              · exact (nodupHF_iff fa).mp hand.2 _ (getField_mem fa p.1 av hav)
              · exact (okOutF_iff fb).mp hb3 q hq
              · exact (nodupHF_iff fb).mp hbnd.2 q hq

theorem cacheFind_mem : ∀ (c : RefCache) (k : String) (x : Option Json),
    cacheFind c k = some x → (k, x) ∈ c := by
  intro c
  induction c with
  | nil => intro k x h; simp [cacheFind] at h
  | cons p rest ih =>
    intro k x h
    obtain ⟨k1, w⟩ := p
    by_cases hk : k1 == k
    · have hk' : k1 = k := by simpa using hk
      subst hk'
      simp [cacheFind] at h
      subst h
      exact List.mem_cons_self _ _
    · simp [cacheFind, hk] at h
      exact List.mem_cons_of_mem _ (ih k x h)

theorem isFlaggedTrue_false_of_no_key : ∀ fs : List (String × Json),
    hasKeyF fs "__circularRef__" = false → isFlaggedTrue fs = false := by
  intro fs h
  cases hf : isFlaggedTrue fs with
  | false => rfl
  | true =>
    have := (isFlaggedTrue_iff fs).mp hf
    rw [(getField_none_iff fs "__circularRef__").mpr h] at this
    cases this

theorem hasKeyF_eq_of_keys_eq : ∀ (ws fs : List (String × Json)),
    ws.map Prod.fst = fs.map Prod.fst → ∀ k, hasKeyF ws k = hasKeyF fs k := by
  intro ws
  induction ws with
  | nil =>
    intro fs h k
    cases fs with
    | nil => rfl
    | cons q fr => simp at h
  | cons p rest ih =>
    intro fs h k
    obtain ⟨k1, w⟩ := p
    cases fs with
    | nil => simp at h
    | cons q fr =>
      obtain ⟨k2, v2⟩ := q
      simp only [List.map_cons, List.cons.injEq] at h
      obtain ⟨hk, ht⟩ := h
      subst hk
      simp only [hasKeyF, List.any_cons]
      rw [show rest.any (fun p => p.1 == k) = hasKeyF rest k from rfl]
      rw [show fr.any (fun p => p.1 == k) = hasKeyF fr k from rfl]
      rw [ih fr ht k]

theorem keysNodup_of_keys_eq : ∀ (ws fs : List (String × Json)),
    ws.map Prod.fst = fs.map Prod.fst → keysNodup fs = true → keysNodup ws = true := by
  intro ws
  induction ws with
  | nil => intro fs h hn; simp [keysNodup]
  | cons p rest ih =>
    intro fs h hn
    obtain ⟨k, w⟩ := p
    cases fs with
    | nil => simp at h
    | cons q fr =>
      obtain ⟨k2, v2⟩ := q
      simp only [List.map_cons, List.cons.injEq] at h
      obtain ⟨hk, ht⟩ := h
      subst hk
      simp only [keysNodup, Bool.and_eq_true, Bool.not_eq_true'] at hn ⊢
      obtain ⟨hn1, hn2⟩ := hn
      refine ⟨?_, ih fr ht hn2⟩
      rw [hasKeyF_eq_of_keys_eq rest fr ht]
      exact hn1

theorem foldl_merge_inv : ∀ (ys : List Json) (acc : Json),
    okOut acc = true → nodupH acc = true →
    (∀ y ∈ ys, okOut y = true ∧ nodupH y = true) →
    okOut (ys.foldl merge1 acc) = true ∧ nodupH (ys.foldl merge1 acc) = true := by
  intro ys
  induction ys with
  | nil => intro acc h1 h2 h3; exact ⟨h1, h2⟩
  | cons y rest ih =>
    intro acc h1 h2 h3
    have hy := h3 y (List.mem_cons_self _ _)
    refine ih (merge1 acc y) ?_ ?_ ?_
    · exact merge1_ok y acc h1 h2 hy.1 hy.2
    · exact merge1_nodup y acc h2 hy.2
    · intro z hz
      exact h3 z (List.mem_cons_of_mem _ hz)

theorem mergeOpt1_inv : ∀ (base : Option Json) (b : Json),
    okOut b = true → nodupH b = true →
    (∀ w, base = some w → okOut w = true ∧ nodupH w = true) →
    okOut (mergeOpt1 base b) = true ∧ nodupH (mergeOpt1 base b) = true := by
  intro base b hb hnb hbase
  rcases base with _ | w
  · exact ⟨hb, hnb⟩
  · have hw := hbase w rfl
    exact ⟨merge1_ok b w hw.1 hw.2 hb hnb, merge1_nodup b w hw.2 hnb⟩

theorem sib_inv : ∀ (fields : List (String × Json)),
    hasKeyF fields "__circularRef__" = false →
    refCircFreeF (eraseKey fields "$ref") = true →
    keysNodup fields = true → nodupHF fields = true →
    okOut (.obj (eraseKey fields "$ref")) = true
      ∧ nodupH (.obj (eraseKey fields "$ref")) = true := by
  intro fields hc hrcf hknd hndf
  constructor
  · have h1 : hasKeyF (eraseKey fields "$ref") "$ref" = false :=
      hasKeyF_eraseKey_self fields "$ref"
    have h2 : hasKeyF (eraseKey fields "$ref") "__circularRef__" = false := by
      cases hh : hasKeyF (eraseKey fields "$ref") "__circularRef__" with
      | false => rfl
      | true =>
        rw [hasKeyF_eraseKey_imp fields _ _ hh] at hc
        cases hc
    simp only [okOut, Bool.or_eq_true, Bool.and_eq_true, Bool.not_eq_true']
    right
    refine ⟨⟨h1, h2⟩, ?_⟩
    rw [okOutF_iff]
    intro p hp
    exact rcf_okOut p.2 ((refCircFreeF_iff _).mp hrcf p hp)
  · simp only [nodupH, Bool.and_eq_true]
    refine ⟨keysNodup_eraseKey fields "$ref" hknd, ?_⟩
    rw [nodupHF_iff]
    intro p hp
    exact (nodupHF_iff fields).mp hndf p (mem_eraseKey fields "$ref" p hp)

theorem wf_getByPointer : ∀ (root : Json) (ptr : String) (t : Json),
    wfRefs root = true → nodupH root = true → getByPointer root ptr = some t →
    wfRefs t = true ∧ nodupH t = true := by
  intro root ptr t hw hn h
  refine getByPointer_pres (P := fun v => wfRefs v = true ∧ nodupH v = true)
    ?_ ?_ root ptr t ⟨hw, hn⟩ h
  · intro fs k v hp hg
    obtain ⟨hwo, hno⟩ := hp
    have hnd : keysNodup fs = true ∧ nodupHF fs = true := by
      simpa [nodupH] using hno
    have hnv : nodupH v = true :=
      (nodupHF_iff fs).mp hnd.2 (k, v) (getField_mem fs k v hg)
    refine ⟨?_, hnv⟩
    rcases hr : getField fs "$ref" with _ | w
    · have hwf : wfRefsF fs = true := by
        have := hwo
        simp only [wfRefs, hr, Bool.and_eq_true] at this
        exact this.2
      exact (wfRefsF_iff fs).mp hwf (k, v) (getField_mem fs k v hg)
    · cases w with
      | str r =>
        have hrcf : refCircFreeF (eraseKey fs "$ref") = true := by
          have := hwo
          simp only [wfRefs, hr, Bool.and_eq_true] at this
          exact this.2
        by_cases hkk : k = "$ref"
        · subst hkk
          rw [hr] at hg
          cases hg
          rfl
        · have hg2 : getField (eraseKey fs "$ref") k = some v := by
            rw [getField_eraseKey_ne fs k "$ref" hkk]
            exact hg
          exact rcf_wf v ((refCircFreeF_iff _).mp hrcf (k, v)
            (getField_mem _ k v hg2))
      | null => simp [wfRefs, hr] at hwo
      | bool b => simp [wfRefs, hr] at hwo
      | num n => simp [wfRefs, hr] at hwo
      | arr xs => simp [wfRefs, hr] at hwo
      | obj fs2 => simp [wfRefs, hr] at hwo
  · intro xs i x hp hg
    obtain ⟨hwo, hno⟩ := hp
    have hmem := List.get?_mem hg
    constructor
    · exact (wfRefsL_iff xs).mp (by simpa [wfRefs] using hwo) x hmem
    · exact (nodupHL_iff xs).mp (by simpa [nodupH] using hno) x hmem

/-- Cache invariant: every resolved entry of the ref cache satisfies the
produced-value invariant (unresolved entries carry none). -/
def cacheInv (c : RefCache) : Prop :=
  ∀ p ∈ c, ∀ w, p.2 = some w → okOut w = true ∧ nodupH w = true

theorem cacheInv_cons : ∀ (c : RefCache) (k : String) (x : Option Json),
    cacheInv c → (∀ w, x = some w → okOut w = true ∧ nodupH w = true) →
    cacheInv ((k, x) :: c) := by
  intro c k x hc hx p hp w hw
  rcases List.mem_cons.mp hp with h | h
  · subst h
    exact hx w hw
  · exact hc p h w hw

/-- The resolver's output invariant: given a well-formed document and
fragment (string-valued lone-or-ref-free-sibling refs, no reserved markers,
no duplicate keys), every produced value is either a circular sentinel or
free of $ref and marker keys, hereditarily, and the cache keeps the same
invariant. -/
theorem deref_inv (doc : Json) (hwdoc : wfRefs doc = true)
    (hndoc : nodupH doc = true) :
    ∀ fuel : Nat,
    (∀ (v : Json) (stack : List String) (cache : RefCache) (r : Json) (c : RefCache),
      wfRefs v = true → nodupH v = true → cacheInv cache →
      deepDerefJ doc fuel stack cache v = some (r, c) →
      (okOut r = true ∧ nodupH r = true) ∧ cacheInv c)
    ∧ (∀ (xs : List Json) (stack : List String) (cache : RefCache)
        (ys : List Json) (c : RefCache),
      wfRefsL xs = true → nodupHL xs = true → cacheInv cache →
      derefList doc fuel stack cache xs = some (ys, c) →
      (okOutL ys = true ∧ nodupHL ys = true) ∧ cacheInv c)
    ∧ (∀ (fs : List (String × Json)) (stack : List String) (cache : RefCache)
        (ws : List (String × Json)) (c : RefCache),
      wfRefsF fs = true → nodupHF fs = true → cacheInv cache →
      derefFields doc fuel stack cache fs = some (ws, c) →
      (okOutF ws = true ∧ nodupHF ws = true
        ∧ ws.map Prod.fst = fs.map Prod.fst) ∧ cacheInv c) := by
  intro fuel
  induction fuel using Nat.strong_induction_on with
  | _ fuel IH =>
  refine ⟨?_, ?_, ?_⟩
  · -- deepDerefJ
    intro v stack cache r c hwf hnv hci heq
    match fuel, IH, heq with
    | 0, _, heq => cases heq
    | fuel' + 1, IH, heq =>
    have hf' : fuel' < fuel' + 1 := Nat.lt_succ_self _
    match v, hwf, hnv, heq with
    | .null, hwf, hnv, heq =>
      have hE : deepDerefJ doc (fuel' + 1) stack cache .null = some (.null, cache) := rfl
      rw [hE] at heq
      have hRC := Option.some.inj heq
      obtain ⟨hr, hc2⟩ := Prod.mk.injEq .. ▸ hRC
      subst hr
      subst hc2
      exact ⟨⟨rfl, rfl⟩, hci⟩
    | .bool b, hwf, hnv, heq =>
      have hE : deepDerefJ doc (fuel' + 1) stack cache (.bool b)
          = some (.bool b, cache) := rfl
      rw [hE] at heq
      obtain ⟨hr, hc2⟩ := Prod.mk.injEq .. ▸ Option.some.inj heq
      subst hr
      subst hc2
      exact ⟨⟨rfl, rfl⟩, hci⟩
    | .num n, hwf, hnv, heq =>
      have hE : deepDerefJ doc (fuel' + 1) stack cache (.num n)
          = some (.num n, cache) := rfl
      rw [hE] at heq
      obtain ⟨hr, hc2⟩ := Prod.mk.injEq .. ▸ Option.some.inj heq
      subst hr
      subst hc2
      exact ⟨⟨rfl, rfl⟩, hci⟩
    | .str s, hwf, hnv, heq =>
      have hE : deepDerefJ doc (fuel' + 1) stack cache (.str s)
          = some (.str s, cache) := rfl
      rw [hE] at heq
      obtain ⟨hr, hc2⟩ := Prod.mk.injEq .. ▸ Option.some.inj heq
      subst hr
      subst hc2
      exact ⟨⟨rfl, rfl⟩, hci⟩
    | .arr xs, hwf, hnv, heq =>
      match hin : derefList doc fuel' stack cache xs with
      | none =>
        have hE : deepDerefJ doc (fuel' + 1) stack cache (.arr xs) = none := by
          simp [deepDerefJ, hin]
        rw [hE] at heq
        cases heq
      | some (ys, c1) =>
        have hE : deepDerefJ doc (fuel' + 1) stack cache (.arr xs)
            = some (.arr ys, c1) := by
          simp [deepDerefJ, hin]
        rw [hE] at heq
        obtain ⟨hr, hc2⟩ := Prod.mk.injEq .. ▸ Option.some.inj heq
        subst hr
        subst hc2
        have hL := (IH fuel' hf').2.1 xs stack cache ys c1
          (by simpa [wfRefs] using hwf) (by simpa [nodupH] using hnv) hci hin
        exact ⟨⟨by simpa [okOut] using hL.1.1, by simpa [nodupH] using hL.1.2⟩, hL.2⟩
    | .obj fields, hwf, hnv, heq =>
      have hnd : keysNodup fields = true ∧ nodupHF fields = true := by
        simpa [nodupH] using hnv
      by_cases href : ∃ rr, getField fields "$ref" = some (.str rr)
      · obtain ⟨ref, hgf⟩ := href
        have hwf2 : hasKeyF fields "__circularRef__" = false
            ∧ refCircFreeF (eraseKey fields "$ref") = true := by
          simpa [wfRefs, hgf] using hwf
        have hsib := sib_inv fields hwf2.1 hwf2.2 hnd.1 hnd.2
        match hcf : cacheFind cache ref with
        | some base =>
          have hE : deepDerefJ doc (fuel' + 1) stack cache (.obj fields)
              = some (mergeOpt1 base (.obj (eraseKey fields "$ref")), cache) := by
            simp [deepDerefJ, hgf, hcf]
          rw [hE] at heq
          obtain ⟨hr, hc2⟩ := Prod.mk.injEq .. ▸ Option.some.inj heq
          subst hr
          subst hc2
          refine ⟨mergeOpt1_inv base _ hsib.1 hsib.2 ?_, hci⟩
          intro w hw
          exact hci (ref, base) (cacheFind_mem cache ref base hcf) w hw
        | none =>
          match hst : stack.contains ref with
          | true =>
            have hst' : ref ∈ stack := by simpa using hst
            have hE : deepDerefJ doc (fuel' + 1) stack cache (.obj fields)
                = some (.obj (setKey fields "__circularRef__" (.bool true)), cache) := by
              simp [deepDerefJ, hgf, hcf, hst']
            rw [hE] at heq
            obtain ⟨hr, hc2⟩ := Prod.mk.injEq .. ▸ Option.some.inj heq
            subst hr
            subst hc2
            refine ⟨⟨?_, ?_⟩, hci⟩
            · have hflag : isFlaggedTrue (setKey fields "__circularRef__" (.bool true))
                  = true :=
                (isFlaggedTrue_iff _).mpr (getField_setKey_self fields _ _)
              simp [okOut, hflag]
            · simp only [nodupH, Bool.and_eq_true]
              refine ⟨keysNodup_setKey fields _ _ hnd.1, ?_⟩
              rw [nodupHF_iff]
              intro p hp
              rcases mem_setKey fields _ _ p hp with h | h
              · exact (nodupHF_iff fields).mp hnd.2 p h
              · rw [h]
                rfl
          | false =>
            have hst' : ref ∉ stack := by simpa using hst
            match hgp : getByPointer doc ref with
            | none =>
              have hE : deepDerefJ doc (fuel' + 1) stack cache (.obj fields)
                  = some (.obj (eraseKey fields "$ref"), (ref, none) :: cache) := by
                simp [deepDerefJ, hgf, hcf, hst', hgp, mergeOpt1]
              rw [hE] at heq
              obtain ⟨hr, hc2⟩ := Prod.mk.injEq .. ▸ Option.some.inj heq
              subst hr
              subst hc2
              refine ⟨hsib, cacheInv_cons cache ref none hci ?_⟩
              intro w hw
              cases hw
            | some t =>
              match hin : deepDerefJ doc fuel' (ref :: stack) cache t with
              | none =>
                have hE : deepDerefJ doc (fuel' + 1) stack cache (.obj fields)
                    = none := by
                  simp [deepDerefJ, hgf, hcf, hst', hgp, hin]
                rw [hE] at heq
                cases heq
              | some (rt, c1) =>
                have hE : deepDerefJ doc (fuel' + 1) stack cache (.obj fields)
                    = some (mergeOpt1 (some rt) (.obj (eraseKey fields "$ref")),
                        (ref, some rt) :: c1) := by
                  simp [deepDerefJ, hgf, hcf, hst', hgp, hin]
                rw [hE] at heq
                obtain ⟨hr, hc2⟩ := Prod.mk.injEq .. ▸ Option.some.inj heq
                subst hr
                subst hc2
                have hwt := wf_getByPointer doc ref t hwdoc hndoc hgp
                have hT := (IH fuel' hf').1 t (ref :: stack) cache rt c1
                  hwt.1 hwt.2 hci hin
                refine ⟨mergeOpt1_inv (some rt) _ hsib.1 hsib.2 ?_,
                  cacheInv_cons c1 ref (some rt) hT.2 ?_⟩
                · intro w hw
                  cases hw
                  exact hT.1
                · intro w hw
                  cases hw
                  exact hT.1
      · have hgfn : getField fields "$ref" = none := by
          rcases hg2 : getField fields "$ref" with _ | w
          · rfl
          · cases w with
            | str rr => exact absurd ⟨rr, hg2⟩ href
            | null => simp [wfRefs, hg2] at hwf
            | bool b => simp [wfRefs, hg2] at hwf
            | num n => simp [wfRefs, hg2] at hwf
            | arr xs => simp [wfRefs, hg2] at hwf
            | obj fs2 => simp [wfRefs, hg2] at hwf
        have hwf2 : hasKeyF fields "__circularRef__" = false
            ∧ wfRefsF fields = true := by
          simpa [wfRefs, hgfn] using hwf
        have hred : deepDerefJ doc (fuel' + 1) stack cache (.obj fields) =
            (match getField fields "allOf" with
             | some (.arr parts) =>
               match derefList doc fuel' stack cache parts with
               | none => none
               | some (ps, c1) =>
                 match deepDerefJ doc fuel' stack c1 (.obj (eraseKey fields "allOf")) with
                 | none => none
                 | some (rrest, c2) =>
                   some (merge1 (ps.foldl merge1 (.obj [])) rrest, c2)
             | _ =>
               match derefFields doc fuel' stack cache fields with
               | none => none
               | some (out, cx) => some (.obj out, cx)) := by
          simp [deepDerefJ, hgfn]
        rw [hred] at heq
        by_cases hao : ∃ parts, getField fields "allOf" = some (.arr parts)
        · obtain ⟨parts, haof⟩ := hao
          rw [haof] at heq
          have heqA : (match derefList doc fuel' stack cache parts with
              | none => none
              | some (ps, c1) =>
                match deepDerefJ doc fuel' stack c1 (.obj (eraseKey fields "allOf")) with
                | none => none
                | some (rrest, c2) =>
                  some (merge1 (ps.foldl merge1 (.obj [])) rrest, c2))
              = some (r, c) := heq
          have hwparts : wfRefsL parts = true ∧ nodupHL parts = true := by
            have h1 := (wfRefsF_iff fields).mp hwf2.2 ("allOf", .arr parts)
              (getField_mem fields _ _ haof)
            have h2 := (nodupHF_iff fields).mp hnd.2 ("allOf", .arr parts)
              (getField_mem fields _ _ haof)
            exact ⟨by simpa [wfRefs] using h1, by simpa [nodupH] using h2⟩
          match hin : derefList doc fuel' stack cache parts with
          | none => rw [hin] at heqA; cases heqA
          | some (ps, c1) =>
            rw [hin] at heqA
            have heqB : (match deepDerefJ doc fuel' stack c1
                  (.obj (eraseKey fields "allOf")) with
                | none => none
                | some (rrest, c2) =>
                  some (merge1 (ps.foldl merge1 (.obj [])) rrest, c2))
                = some (r, c) := heqA
            have hP := (IH fuel' hf').2.1 parts stack cache ps c1
              hwparts.1 hwparts.2 hci hin
            have hrestwf : wfRefs (.obj (eraseKey fields "allOf")) = true := by
              have hg3 : getField (eraseKey fields "allOf") "$ref"
                  = getField fields "$ref" :=
                getField_eraseKey_ne fields "$ref" "allOf" (by decide)
              simp only [wfRefs, hg3, hgfn, Bool.and_eq_true, Bool.not_eq_true']
              constructor
              · cases hh : hasKeyF (eraseKey fields "allOf") "__circularRef__" with
                | false => rfl
                | true =>
                  exact absurd (hasKeyF_eraseKey_imp fields _ _ hh)
                    (by simp [hwf2.1])
              · rw [wfRefsF_iff]
                intro p hp
                exact (wfRefsF_iff fields).mp hwf2.2 p (mem_eraseKey _ _ p hp)
            have hrestnd : nodupH (.obj (eraseKey fields "allOf")) = true := by
              simp only [nodupH, Bool.and_eq_true]
              refine ⟨keysNodup_eraseKey fields _ hnd.1, ?_⟩
              rw [nodupHF_iff]
              intro p hp
              exact (nodupHF_iff fields).mp hnd.2 p (mem_eraseKey _ _ p hp)
            match hin2 : deepDerefJ doc fuel' stack c1 (.obj (eraseKey fields "allOf")) with
            | none => rw [hin2] at heqB; cases heqB
            | some (rrest, c2) =>
              rw [hin2] at heqB
              have hR := (IH fuel' hf').1 (.obj (eraseKey fields "allOf"))
                stack c1 rrest c2 hrestwf hrestnd hP.2 hin2
              obtain ⟨hr, hc2⟩ := Prod.mk.injEq .. ▸ Option.some.inj heqB
              subst hr
              subst hc2
              have hfold := foldl_merge_inv ps (.obj []) rfl rfl
                (fun y hy => ⟨(okOutL_iff ps).mp hP.1.1 y hy,
                  (nodupHL_iff ps).mp hP.1.2 y hy⟩)
              exact ⟨⟨merge1_ok rrest _ hfold.1 hfold.2 hR.1.1 hR.1.2,
                merge1_nodup rrest _ hfold.2 hR.1.2⟩, hR.2⟩
        · have hnoarr : ∀ ps, getField fields "allOf" ≠ some (.arr ps) :=
            fun ps hps => hao ⟨ps, hps⟩
          have heq2 : (match derefFields doc fuel' stack cache fields with
              | none => none
              | some (out, cx) => some (Json.obj out, cx)) = some (r, c) := by
            rcases haof : getField fields "allOf" with _ | w
            · rw [haof] at heq
              exact heq
            · cases w with
              | arr ps => exact absurd haof (hnoarr ps)
              | null => rw [haof] at heq; exact heq
              | bool b => rw [haof] at heq; exact heq
              | num n => rw [haof] at heq; exact heq
              | str s => rw [haof] at heq; exact heq
              | obj fs2 => rw [haof] at heq; exact heq
          match hin : derefFields doc fuel' stack cache fields with
          | none => rw [hin] at heq2; cases heq2
          | some (ws, cx) =>
            rw [hin] at heq2
            obtain ⟨hr, hc2⟩ := Prod.mk.injEq .. ▸ Option.some.inj heq2
            subst hr
            subst hc2
            have hF := (IH fuel' hf').2.2 fields stack cache ws cx
              hwf2.2 hnd.2 hci hin
            obtain ⟨⟨hok, hnod, hkeq⟩, hcinv⟩ := hF
            refine ⟨⟨?_, ?_⟩, hcinv⟩
            · have h1 : hasKeyF ws "$ref" = false := by
                rw [hasKeyF_eq_of_keys_eq ws fields hkeq]
                exact (getField_none_iff fields "$ref").mp hgfn
              have h2 : hasKeyF ws "__circularRef__" = false := by
                rw [hasKeyF_eq_of_keys_eq ws fields hkeq]
                exact hwf2.1
              simp only [okOut, Bool.or_eq_true, Bool.and_eq_true,
                Bool.not_eq_true']
              exact Or.inr ⟨⟨h1, h2⟩, hok⟩
            · simp only [nodupH, Bool.and_eq_true]
              exact ⟨keysNodup_of_keys_eq ws fields hkeq hnd.1, hnod⟩
  · -- derefList
    intro xs stack cache ys c hwf hnv hci heq
    match xs, hwf, hnv, heq with
    | [], hwf, hnv, heq =>
      have hE : derefList doc fuel stack cache [] = some ([], cache) := by
        cases fuel <;> rfl
      rw [hE] at heq
      obtain ⟨hr, hc2⟩ := Prod.mk.injEq .. ▸ Option.some.inj heq
      subst hr
      subst hc2
      exact ⟨⟨rfl, rfl⟩, hci⟩
    | x :: rest, hwf, hnv, heq =>
      match fuel, IH, heq with
      | 0, _, heq => cases heq
      | fuel' + 1, IH, heq =>
        have hf' : fuel' < fuel' + 1 := Nat.lt_succ_self _
        have hw1 : wfRefs x = true ∧ wfRefsL rest = true := by
          simpa [wfRefsL] using hwf
        have hn1 : nodupH x = true ∧ nodupHL rest = true := by
          simpa [nodupHL] using hnv
        match hin : deepDerefJ doc fuel' stack cache x with
        | none =>
          have hE : derefList doc (fuel' + 1) stack cache (x :: rest) = none := by
            simp [derefList, hin]
          rw [hE] at heq
          cases heq
        | some (y, c1) =>
          have hY := (IH fuel' hf').1 x stack cache y c1 hw1.1 hn1.1 hci hin
          match hin2 : derefList doc fuel' stack c1 rest with
          | none =>
            have hE : derefList doc (fuel' + 1) stack cache (x :: rest) = none := by
              simp [derefList, hin, hin2]
            rw [hE] at heq
            cases heq
          | some (ys2, c2) =>
            have hE : derefList doc (fuel' + 1) stack cache (x :: rest)
                = some (y :: ys2, c2) := by
              simp [derefList, hin, hin2]
            rw [hE] at heq
            obtain ⟨hr, hc2⟩ := Prod.mk.injEq .. ▸ Option.some.inj heq
            subst hr
            subst hc2
            have hR := (IH fuel' hf').2.1 rest stack c1 ys2 c2 hw1.2 hn1.2 hY.2 hin2
            refine ⟨⟨?_, ?_⟩, hR.2⟩
            · simp only [okOutL, Bool.and_eq_true]
              exact ⟨hY.1.1, hR.1.1⟩
            · simp only [nodupHL, Bool.and_eq_true]
              exact ⟨hY.1.2, hR.1.2⟩
  · -- derefFields
    intro fs stack cache ws c hwf hnv hci heq
    match fs, hwf, hnv, heq with
    | [], hwf, hnv, heq =>
      have hE : derefFields doc fuel stack cache [] = some ([], cache) := by
        cases fuel <;> rfl
      rw [hE] at heq
      obtain ⟨hr, hc2⟩ := Prod.mk.injEq .. ▸ Option.some.inj heq
      subst hr
      subst hc2
      exact ⟨⟨rfl, rfl, rfl⟩, hci⟩
    | (k, v) :: rest, hwf, hnv, heq =>
      match fuel, IH, heq with
      | 0, _, heq => cases heq
      | fuel' + 1, IH, heq =>
        have hf' : fuel' < fuel' + 1 := Nat.lt_succ_self _
        have hw1 : wfRefs v = true ∧ wfRefsF rest = true := by
          simpa [wfRefsF] using hwf
        have hn1 : nodupH v = true ∧ nodupHF rest = true := by
          simpa [nodupHF] using hnv
        match hin : deepDerefJ doc fuel' stack cache v with
        | none =>
          have hE : derefFields doc (fuel' + 1) stack cache ((k, v) :: rest)
              = none := by
            simp [derefFields, hin]
          rw [hE] at heq
          cases heq
        | some (w, c1) =>
          have hW := (IH fuel' hf').1 v stack cache w c1 hw1.1 hn1.1 hci hin
          match hin2 : derefFields doc fuel' stack c1 rest with
          | none =>
            have hE : derefFields doc (fuel' + 1) stack cache ((k, v) :: rest)
                = none := by
              simp [derefFields, hin, hin2]
            rw [hE] at heq
            cases heq
          | some (ws2, c2) =>
            have hE : derefFields doc (fuel' + 1) stack cache ((k, v) :: rest)
                = some ((k, w) :: ws2, c2) := by
              simp [derefFields, hin, hin2]
            rw [hE] at heq
            obtain ⟨hr, hc2⟩ := Prod.mk.injEq .. ▸ Option.some.inj heq
            subst hr
            subst hc2
            have hR := (IH fuel' hf').2.2 rest stack c1 ws2 c2 hw1.2 hn1.2 hW.2 hin2
            refine ⟨⟨?_, ?_, ?_⟩, hR.2⟩
            · simp only [okOutF, Bool.and_eq_true]
              exact ⟨hW.1.1, hR.1.1⟩
            · simp only [nodupHF, Bool.and_eq_true]
              exact ⟨hW.1.2, hR.1.2.1⟩
            · simp only [List.map_cons, hR.1.2.2]

theorem hasBadRefL_false_iff : ∀ xs : List Json,
    hasBadRefL xs = false ↔ ∀ x ∈ xs, hasBadRef x = false := by
  intro xs
  induction xs with
  | nil => simp [hasBadRefL]
  | cons x rest ih => simp [hasBadRefL, ih]

theorem hasBadRefF_false_iff : ∀ fs : List (String × Json),
    hasBadRefF fs = false ↔ ∀ p ∈ fs, hasBadRef p.2 = false := by
  intro fs
  induction fs with
  | nil => simp [hasBadRefF]
  | cons p rest ih =>
    obtain ⟨k, v⟩ := p
    simp [hasBadRefF, ih]

theorem okOut_no_bad_ref : ∀ v, okOut v = true → hasBadRef v = false := by
  intro v
  induction v using json_ind with
  | hnull => intro h; rfl
  | hbool b => intro h; rfl
  | hnum n => intro h; rfl
  | hstr s => intro h; rfl
  | harr xs ih =>
    intro h
    simp only [hasBadRef]
    rw [hasBadRefL_false_iff]
    intro x hx
    exact ih x hx ((okOutL_iff xs).mp (by simpa [okOut] using h) x hx)
  | hobj fs ih =>
    intro h
    rcases (by simpa [okOut] using h : isFlaggedTrue fs = true ∨
        (hasKeyF fs "$ref" = false ∧ hasKeyF fs "__circularRef__" = false)
          ∧ okOutF fs = true) with hf | ⟨⟨h1, h2⟩, h3⟩
    · simp [hasBadRef, hf]
    · have hff : isFlaggedTrue fs = false := isFlaggedTrue_false_of_no_key fs h2
      have h4 : hasBadRefF fs = false := by
        rw [hasBadRefF_false_iff]
        intro p hp
        exact ih p hp ((okOutF_iff fs).mp h3 p hp)
      simp [hasBadRef, hff, h1, h4]

/-- C1 amended: for every document and fragment whose $ref occurrences are
string-valued and whose sibling fields next to a $ref contain no $ref or
marker keys themselves (and no reserved __circularRef__ key or duplicate keys
appear anywhere), deepDeref terminates and returns a value containing no $ref
key outside circular-flagged sentinels. The original claim fails without the
sibling restriction because sibling override values are merged raw (see the
counterexample). -/
theorem c1_amended_deref_no_refs (doc v : Json)
    (hwd : wfRefs doc = true) (hnd : nodupH doc = true)
    (hwv : wfRefs v = true) (hnv : nodupH v = true) :
    ∃ (fuel : Nat) (r : Json) (c : RefCache),
      deepDerefJ doc fuel [] [] v = some (r, c) ∧ hasBadRef r = false := by
  obtain ⟨fuel, r, c, h⟩ := deepDeref_total doc v
  have hcinil : cacheInv [] := by
    intro p hp w hw
    exact absurd hp (List.not_mem_nil p)
  have hinv := (deref_inv doc hwd hnd fuel).1 v [] [] r c hwv hnv hcinil h
  exact ⟨fuel, r, c, h, okOut_no_bad_ref r hinv.1.1⟩

/-- C1 witness: the amended statement applied to the concrete cyclic document
docCyc (which is well formed: every $ref stands alone and is string-valued)
and the fragment referencing schema A. -/
theorem c1_amended_witness :
    ∃ (fuel : Nat) (r : Json) (c : RefCache),
      deepDerefJ docCyc fuel [] []
          (.obj [("$ref", .str "#/components/schemas/A")]) = some (r, c)
        ∧ hasBadRef r = false :=
  c1_amended_deref_no_refs docCyc
    (.obj [("$ref", .str "#/components/schemas/A")])
    (by rfl) (by rfl) (by rfl) (by rfl)

/-- Object.entries: own enumerable entries in order; arrays yield indexed
entries, strings yield indexed one-character strings, other primitives yield
nothing. -/
def entriesIdx : Nat → List Json → List (String × Json)
  | _, [] => []
  | i, x :: xs => (toString i, x) :: entriesIdx (i + 1) xs

/-- Indexed character entries of a string. -/
def entriesIdxC : Nat → List Char → List (String × Json)
  | _, [] => []
  | i, c :: cs => (toString i, .str (String.mk [c])) :: entriesIdxC (i + 1) cs

/-- Object.entries on a value. -/
def entriesOf : Json → List (String × Json)
  | .obj fs => fs
  | .arr xs => entriesIdx 0 xs
  | .str s => entriesIdxC 0 s.data
  | _ => []

/-- Whether typeof gives object and the value is truthy (arrays and objects;
null is typeof object but falsy). -/
def isObjArr : Json → Bool
  | .arr _ => true
  | .obj _ => true
  | _ => false

/-- Object-literal spread of two object-typed values, `{...a, ...b}`: a's
entries first, b's entries written over them. -/
def spread2 (a b : Json) : Json :=
  .obj ((entriesOf b).foldl (fun acc p => setKey acc p.1 p.2) (entriesOf a))

/-- The x?.length-then-x[0] access used for anyOf/oneOf: a nonempty array
gives its head, a nonempty string gives its first character as a string
(JS indexes strings too); anything else is falsy or undefined. Objects
carrying a numeric length property are not modelled (no schema shape the
module meets has one). -/
def lengthyFirst : Option Json → Option Json
  | some (.arr (x :: _)) => some x
  | some (.str s) =>
    match s.data with
    | c :: _ => some (.str (String.mk [c]))
    | [] => none
  | _ => none

/-- The declared-or-inferred type: schema.type if truthy, else object when
properties is truthy, else array when items is truthy, else undefined. -/
def jsTypeOf (schema : Json) : Option Json :=
  match getF schema "type" with
  | some ty =>
    if truthy ty then some ty
    else if truthyO (getF schema "properties") then some (.str "object")
    else if truthyO (getF schema "items") then some (.str "array")
    else none
  | none =>
    if truthyO (getF schema "properties") then some (.str "object")
    else if truthyO (getF schema "items") then some (.str "array")
    else none

/-- The `x || {}` default used for properties and items. -/
def orEmptyObj (x : Option Json) : Json :=
  match x with
  | some v => if truthy v then v else .obj []
  | none => .obj []

/-- The source's sampleFromSchema, recursing on the remaining depth budget
gas = 9 - depth so that the recursion is structural; whenever the source's
guard depth > 8 admits a call, gas is positive, and when gas runs out the
guard would have returned null anyway, so the two agree everywhere. now
stands for the clock reading new Date().toISOString() at the moment of the
call (the only impure input; date-time uses it whole, date its first ten
characters). Falsy schemas and depth beyond 8 give null; value precedence is
const, first enum element, default, example, then type-directed synthesis;
without a type, anyOf[0], oneOf[0], then an allOf fold (object spread when
both sides are object-typed, else the first non-null side). An allOf bound to
a nonempty string would make the source throw on .reduce; that
unreachable-for-schemas case is modelled as null. -/
def sampleGo (now : String) : Nat → Json → Nat → Json
  | 0, _, _ => .null
  | gas + 1, schema, depth =>
    if truthy schema = false ∨ 8 < depth then .null
    else
      match getF schema "const" with
      | some cv => cv
      | none =>
        match getF schema "enum" with
        | some (.arr (e :: _)) => e
        | _ =>
          match getF schema "default" with
          | some dv => dv
          | none =>
            match getF schema "example" with
            | some ev => ev
            | none =>
              match jsTypeOf schema with
              | some (.str "object") =>
                .obj ((entriesOf (orEmptyObj (getF schema "properties"))).map
                  (fun p => (p.1, sampleGo now gas p.2 (depth + 1))))
              | some (.str "array") =>
                .arr [sampleGo now gas (orEmptyObj (getF schema "items")) (depth + 1)]
              | some (.str "integer") => .num 0
              | some (.str "number") => .num 0
              | some (.str "boolean") => .bool false
              | some (.str "string") =>
                match getF schema "format" with
                | some (.str "date-time") => .str now
                | some (.str "date") => .str (String.mk (now.data.take 10))
                | some (.str "uuid") => .str "00000000-0000-0000-0000-000000000000"
                | some (.str "email") => .str "user@example.com"
                | _ => .str "string"
              | _ =>
                match lengthyFirst (getF schema "anyOf") with
                | some a0 => sampleGo now gas a0 (depth + 1)
                | none =>
                  match lengthyFirst (getF schema "oneOf") with
                  | some o0 => sampleGo now gas o0 (depth + 1)
                  | none =>
                    match getF schema "allOf" with
                    | some (.arr (p :: ps)) =>
                      (p :: ps).foldl (fun acc s =>
                        let v := sampleGo now gas s (depth + 1)
                        if isObjArr acc && isObjArr v then spread2 acc v
                        else match acc with
                          | .null => v
                          | _ => acc) (.obj [])
                    | _ => .null

/-- The source entry point: sampleFromSchema(schema, depth) with the ambient
clock made explicit. -/
def sampleFromSchema (now : String) (schema : Json) (depth : Nat) : Json :=
  sampleGo now (9 - depth) schema depth

mutual
/-- No object anywhere in the value declares format date-time or date: the
only schema shapes whose synthesis reads the clock. -/
def dateFree : Json → Bool
  | .null => true
  | .bool _ => true
  | .num _ => true
  | .str _ => true
  | .arr xs => dateFreeL xs
  | .obj fs =>
    (match getField fs "format" with
     | some (.str "date-time") => false
     | some (.str "date") => false
     | _ => true) && dateFreeF fs
def dateFreeL : List Json → Bool
  | [] => true
  | x :: xs => dateFree x && dateFreeL xs
def dateFreeF : List (String × Json) → Bool
  | [] => true
  | (_, v) :: fs => dateFree v && dateFreeF fs
end

theorem dateFreeL_iff : ∀ xs : List Json,
    dateFreeL xs = true ↔ ∀ x ∈ xs, dateFree x = true := by
  intro xs
  induction xs with
  | nil => simp [dateFreeL]
  | cons x rest ih => simp [dateFreeL, ih]

theorem dateFreeF_iff : ∀ fs : List (String × Json),
    dateFreeF fs = true ↔ ∀ p ∈ fs, dateFree p.2 = true := by
  intro fs
  induction fs with
  | nil => simp [dateFreeF]
  | cons p rest ih =>
    obtain ⟨k, v⟩ := p
    simp [dateFreeF, ih]

theorem dateFree_getF : ∀ (s : Json) (k : String) (v : Json),
    dateFree s = true → getF s k = some v → dateFree v = true := by
  intro s k v hdf hg
  cases s with
  | obj fs =>
    have h2 : dateFreeF fs = true := by
      simp only [dateFree, Bool.and_eq_true] at hdf
      exact hdf.2
    exact (dateFreeF_iff fs).mp h2 (k, v) (getField_mem fs k v hg)
  | null => cases hg
  | bool b => cases hg
  | num n => cases hg
  | str ss => cases hg
  | arr xs => cases hg

theorem mem_entriesIdx : ∀ (xs : List Json) (i : Nat) (p : String × Json),
    p ∈ entriesIdx i xs → p.2 ∈ xs := by
  intro xs
  induction xs with
  | nil => intro i p h; simp [entriesIdx] at h
  | cons x rest ih =>
    intro i p h
    rcases List.mem_cons.mp h with h1 | h1
    · rw [h1]
      exact List.mem_cons_self _ _
    · exact List.mem_cons_of_mem _ (ih (i + 1) p h1)

theorem mem_entriesIdxC : ∀ (cs : List Char) (i : Nat) (p : String × Json),
    p ∈ entriesIdxC i cs → ∃ ch, p.2 = .str (String.mk [ch]) := by
  intro cs
  induction cs with
  | nil => intro i p h; simp [entriesIdxC] at h
  | cons ch rest ih =>
    intro i p h
    rcases List.mem_cons.mp h with h1 | h1
    · exact ⟨ch, by rw [h1]⟩
    · exact ih (i + 1) p h1

theorem dateFree_entriesOf : ∀ (v : Json),
    dateFree v = true → ∀ p ∈ entriesOf v, dateFree p.2 = true := by
  intro v hdf p hp
  cases v with
  | obj fs =>
    have h2 : dateFreeF fs = true := by
      simp only [dateFree, Bool.and_eq_true] at hdf
      exact hdf.2
    exact (dateFreeF_iff fs).mp h2 p hp
  | arr xs =>
    exact (dateFreeL_iff xs).mp (by simpa [dateFree] using hdf) p.2
      (mem_entriesIdx xs 0 p hp)
  | str s =>
    obtain ⟨ch, hch⟩ := mem_entriesIdxC s.data 0 p hp
    rw [hch]
    rfl
  | null => simp [entriesOf] at hp
  | bool b => simp [entriesOf] at hp
  | num n => simp [entriesOf] at hp

theorem dateFree_orEmptyObj : ∀ (s : Json) (k : String),
    dateFree s = true → dateFree (orEmptyObj (getF s k)) = true := by
  intro s k hdf
  unfold orEmptyObj
  rcases hg : getF s k with _ | v
  · rfl
  · show dateFree (if truthy v then v else .obj []) = true
    by_cases ht : truthy v
    · rw [if_pos ht]
      exact dateFree_getF s k v hdf hg
    · rw [if_neg ht]
      rfl

theorem dateFree_lengthyFirst : ∀ (s : Json) (k : String) (a0 : Json),
    dateFree s = true → lengthyFirst (getF s k) = some a0 → dateFree a0 = true := by
  intro s k a0 hdf hl
  rcases hg : getF s k with _ | w
  · rw [hg] at hl
    cases hl
  · rw [hg] at hl
    have hw := dateFree_getF s k w hdf hg
    cases w with
    | arr xs =>
      cases xs with
      | nil => cases hl
      | cons x rest =>
        have hx : x = a0 := by simpa [lengthyFirst] using hl
        subst hx
        exact (dateFreeL_iff _).mp (by simpa [dateFree] using hw) _
          (List.mem_cons_self _ _)
    | str ss =>
      cases hcs : ss.data with
      | nil => rw [show lengthyFirst (some (.str ss)) = none by
          simp [lengthyFirst, hcs]] at hl; cases hl
      | cons c rest =>
        have : a0 = .str (String.mk [c]) := by
          have := hl
          rw [show lengthyFirst (some (.str ss)) = some (.str (String.mk [c])) by
            simp [lengthyFirst, hcs]] at this
          exact (Option.some.inj this).symm
        rw [this]
        rfl
    | null => cases hl
    | bool b => cases hl
    | num n => cases hl
    | obj fs => cases hl

theorem dateFree_format : ∀ s, dateFree s = true →
    getF s "format" ≠ some (.str "date-time") ∧ getF s "format" ≠ some (.str "date") := by
  intro s hdf
  cases s with
  | obj fs =>
    simp only [dateFree, Bool.and_eq_true] at hdf
    obtain ⟨h1, h2⟩ := hdf
    constructor
    · intro hg
      rw [show getF (.obj fs) "format" = getField fs "format" from rfl] at hg
      rw [hg] at h1
      cases h1
    · intro hg
      rw [show getF (.obj fs) "format" = getField fs "format" from rfl] at hg
      rw [hg] at h1
      cases h1
  | null => exact ⟨(fun h => nomatch h), (fun h => nomatch h)⟩
  | bool b => exact ⟨(fun h => nomatch h), (fun h => nomatch h)⟩
  | num n => exact ⟨(fun h => nomatch h), (fun h => nomatch h)⟩
  | str ss => exact ⟨(fun h => nomatch h), (fun h => nomatch h)⟩
  | arr xs => exact ⟨(fun h => nomatch h), (fun h => nomatch h)⟩

theorem foldl_sample_congr : ∀ (l : List Json) (acc : Json) (f1 f2 : Json → Json),
    (∀ x ∈ l, f1 x = f2 x) →
    l.foldl (fun acc s =>
      let v := f1 s
      if isObjArr acc && isObjArr v then spread2 acc v
      else match acc with
        | .null => v
        | _ => acc) acc
    = l.foldl (fun acc s =>
      let v := f2 s
      if isObjArr acc && isObjArr v then spread2 acc v
      else match acc with
        | .null => v
        | _ => acc) acc := by
  intro l
  induction l with
  | nil => intro acc f1 f2 h; rfl
  | cons x rest ih =>
    intro acc f1 f2 h
    simp only [List.foldl_cons]
    rw [h x (List.mem_cons_self _ _)]
    exact ih _ f1 f2 (fun y hy => h y (List.mem_cons_of_mem _ hy))

theorem sampleGo_det : ∀ (gas : Nat) (s : Json) (d : Nat) (n1 n2 : String),
    dateFree s = true → sampleGo n1 gas s d = sampleGo n2 gas s d := by
  intro gas
  induction gas with
  | zero => intro s d n1 n2 h; rfl
  | succ g ih =>
    intro s d n1 n2 hdf
    by_cases hguard : truthy s = false ∨ 8 < d
    · simp [sampleGo, hguard]
    · simp only [sampleGo, if_neg hguard]
      repeat' split
      all_goals try rfl
      all_goals first
        | (rename_i heq
           exact absurd heq (dateFree_format s hdf).1)
        | (rename_i heq
           exact absurd heq (dateFree_format s hdf).2)
        | (rename_i a0 heq
           exact ih a0 (d + 1) n1 n2 (dateFree_lengthyFirst s "anyOf" a0 hdf heq))
        | (rename_i o0 heq
           exact ih o0 (d + 1) n1 n2 (dateFree_lengthyFirst s "oneOf" o0 hdf heq))
        | (congr 1
           refine List.map_congr_left ?_
           intro p hp
           have hrec := ih p.2 (d + 1) n1 n2
             (dateFree_entriesOf _ (dateFree_orEmptyObj s "properties" hdf) p hp)
           rw [hrec])
        | (rw [ih (orEmptyObj (getF s "items")) (d + 1) n1 n2
             (dateFree_orEmptyObj s "items" hdf)])
        | (rename_i p ps heq
           refine foldl_sample_congr (p :: ps) (.obj [])
             (fun x => sampleGo n1 g x (d + 1)) (fun x => sampleGo n2 g x (d + 1)) ?_
           intro x hx
           have hall := dateFree_getF s "allOf" (.arr (p :: ps)) hdf heq
           exact ih x (d + 1) n1 n2
             ((dateFreeL_iff _).mp (by simpa [dateFree] using hall) x hx))

/-- C3 counterexample: the synthesizer reads the clock for string schemas with
format date-time (and date), so two invocations at different instants return
different samples for the same schema. -/
theorem c3_counterexample_clock_variation :
    sampleFromSchema "2024-01-01T00:00:00.000Z"
        (.obj [("type", .str "string"), ("format", .str "date-time")]) 0
      = .str "2024-01-01T00:00:00.000Z"
    ∧ sampleFromSchema "2024-01-02T00:00:00.000Z"
        (.obj [("type", .str "string"), ("format", .str "date-time")]) 0
      = .str "2024-01-02T00:00:00.000Z"
    ∧ Json.str "2024-01-01T00:00:00.000Z" ≠ Json.str "2024-01-02T00:00:00.000Z" :=
  ⟨rfl, rfl, by simp⟩

/-- C3 amended: the synthesizer is deterministic for every schema that nowhere
declares format date-time or date: the sample does not depend on the clock
reading, so two invocations at any two instants agree at every depth. -/
theorem c3_amended_deterministic_off_clock :
    ∀ (s : Json) (d : Nat) (n1 n2 : String), dateFree s = true →
      sampleFromSchema n1 s d = sampleFromSchema n2 s d :=
  fun s d n1 n2 h => sampleGo_det (9 - d) s d n1 n2 h

/-- C3 witness: two invocations at different instants agree on the uuid-format
string schema (clock-free). -/
theorem c3_amended_witness :
    sampleFromSchema "A" (.obj [("type", .str "string"), ("format", .str "uuid")]) 0
      = sampleFromSchema "B"
        (.obj [("type", .str "string"), ("format", .str "uuid")]) 0 :=
  c3_amended_deterministic_off_clock
    (.obj [("type", .str "string"), ("format", .str "uuid")]) 0 "A" "B" (by rfl)

/-- ASCII lower-casing (media-type keys are ASCII; the source's regex carries
the i flag). -/
def lowerAscii (c : Char) : Char :=
  if 'A' ≤ c && c ≤ 'Z' then Char.ofNat (c.toNat + 32) else c

/-- The test of the source's pattern matching application/<something>+json,
case-insensitively: after lower-casing, the key starts with application/,
ends with +json, and has at least one character in between, none of which is
a line terminator (the only characters the regex dot refuses). -/
def plusJsonKey (k : String) : Bool :=
  let lk := k.data.map lowerAscii
  leadsWith lk "application/".data
    && leadsWith lk.reverse ("+json".data.reverse)
    && decide (18 ≤ lk.length)
    && ((lk.drop 12).take (lk.length - 17)).all
      (fun c => !(c == '\n' || c == '\r' || c == ' ' || c == ' '))

/-- The source's pickJsonishContent: absent or non-object input gives absent
(arrays are JS objects and pass the guard); then, in order: a truthy entry at
the exact key application/json; the entry at the first key matching
application/<x>+json (returned even when falsy); a truthy entry at the exact
key */*; else the first entry in iteration order (absent when the map is
empty). -/
def pickJsonishContent (content : Option Json) : Option Json :=
  match content with
  | none => none
  | some c =>
    match c with
    | .obj _ | .arr _ =>
      let ent := entriesOf c
      if truthyO (getField ent "application/json") then getField ent "application/json"
      else
        match ent.find? (fun p => plusJsonKey p.1) with
        | some p => getField ent p.1
        | none =>
          if truthyO (getField ent "*/*") then getField ent "*/*"
          else ent.head?.map Prod.snd
    | _ => none

/-- C8 counterexample: an array is not a mapping, yet it passes the source's
typeof guard and falls through to the first-entry fallback: the selector
returns the array's first element instead of absent. -/
theorem c8_counterexample_array_not_absent :
    pickJsonishContent (some (.arr [.str "a"])) = some (.str "a")
    ∧ some (Json.str "a") ≠ (none : Option Json) :=
  ⟨by rfl, by simp⟩

/-- Every character the decimal printer emits is a digit character below
ten (or came from the accumulator). -/
theorem mem_toDigitsCore_ten :
    ∀ (fuel n : Nat) (ds : List Char) (c : Char),
      c ∈ Nat.toDigitsCore 10 fuel n ds →
      c ∈ ds ∨ ∃ k, k < 10 ∧ c = Nat.digitChar k := by
  intro fuel
  induction fuel with
  | zero =>
    intro n ds c h
    have he : Nat.toDigitsCore 10 0 n ds = ds := rfl
    rw [he] at h
    exact Or.inl h
  | succ fuel ih =>
    intro n ds c h
    have he : Nat.toDigitsCore 10 (fuel + 1) n ds
        = (if n / 10 = 0 then (n % 10).digitChar :: ds
           else Nat.toDigitsCore 10 fuel (n / 10) ((n % 10).digitChar :: ds)) := rfl
    rw [he] at h
    by_cases hz : n / 10 = 0
    · rw [if_pos hz] at h
      rcases List.mem_cons.mp h with h1 | h1
      · exact Or.inr ⟨n % 10, Nat.mod_lt _ (by norm_num), h1⟩
      · exact Or.inl h1
    · rw [if_neg hz] at h
      rcases ih (n / 10) ((n % 10).digitChar :: ds) c h with h1 | h1
      · rcases List.mem_cons.mp h1 with h2 | h2
        · exact Or.inr ⟨n % 10, Nat.mod_lt _ (by norm_num), h2⟩
        · exact Or.inl h2
      · exact Or.inr h1

/-- The first character of a printed natural number is a decimal digit. -/
theorem head_repr_digit (i : Nat) (c : Char)
    (h : (Nat.repr i).data.head? = some c) :
    ∃ k, k < 10 ∧ c = Nat.digitChar k := by
  have hm : c ∈ (Nat.repr i).data := by
    cases hd : (Nat.repr i).data with
    | nil => rw [hd] at h; cases h
    | cons a as =>
      rw [hd] at h
      have ha : a = c := by simpa using h
      rw [ha]
      exact List.mem_cons_self c as
  have he : (Nat.repr i).data = Nat.toDigitsCore 10 (i + 1) i [] := rfl
  rw [he] at hm
  rcases mem_toDigitsCore_ten (i + 1) i [] c hm with h1 | h1
  · exact absurd h1 (List.not_mem_nil c)
  · exact h1

/-- A decimal index key is never the exact key application/json. -/
theorem toString_nat_ne_appjson (i : Nat) :
    (toString i == "application/json") = false := by
  rw [beq_eq_false_iff_ne]
  intro h
  have hh : (Nat.repr i).data.head? = some 'a' := by
    rw [show Nat.repr i = toString i from rfl, h]
    rfl
  obtain ⟨k, hk, he⟩ := head_repr_digit i 'a' hh
  have hnd : ∀ m, m < 10 → 'a' ≠ Nat.digitChar m := by decide
  exact hnd k hk he

/-- A decimal index key is never the wildcard key. -/
theorem toString_nat_ne_star (i : Nat) : (toString i == "*/*") = false := by
  rw [beq_eq_false_iff_ne]
  intro h
  have hh : (Nat.repr i).data.head? = some '*' := by
    rw [show Nat.repr i = toString i from rfl, h]
    rfl
  obtain ⟨k, hk, he⟩ := head_repr_digit i '*' hh
  have hnd : ∀ m, m < 10 → '*' ≠ Nat.digitChar m := by decide
  exact hnd k hk he

/-- A decimal index key never matches the vendor-JSON pattern: its first
character is a digit, not a (case-folded) letter a. -/
theorem plusJsonKey_toString_nat (i : Nat) : plusJsonKey (toString i) = false := by
  cases hpk : plusJsonKey (toString i) with
  | false => rfl
  | true =>
    exfalso
    unfold plusJsonKey at hpk
    simp only [Bool.and_eq_true] at hpk
    have hA : leadsWith ((toString i).data.map lowerAscii) "application/".data = true :=
      hpk.1.1.1
    cases hc : (toString i).data with
    | nil =>
      rw [hc] at hA
      exact absurd hA (by decide)
    | cons c cs =>
      rw [hc] at hA
      obtain ⟨k, hk, he⟩ := head_repr_digit i c
        (by rw [show Nat.repr i = toString i from rfl, hc]; rfl)
      have heq : leadsWith ((c :: cs).map lowerAscii) "application/".data
          = ((lowerAscii c == 'a')
             && leadsWith (cs.map lowerAscii) "pplication/".data) := rfl
      rw [heq] at hA
      have hne : (lowerAscii c == 'a') = false := by
        rw [he]
        have hd : ∀ m, m < 10 → (lowerAscii (Nat.digitChar m) == 'a') = false := by decide
        exact hd k hk
      rw [hne] at hA
      exact absurd hA (by simp)

/-- No lookup of the exact key hits among decimal index entries. -/
theorem getField_entriesIdx_none (key : String)
    (hkey : ∀ j : Nat, (toString j == key) = false) :
    ∀ (xs : List Json) (i : Nat), getField (entriesIdx i xs) key = none := by
  intro xs
  induction xs with
  | nil => intro i; rfl
  | cons x xs ih =>
    intro i
    show (if toString i == key then some x else getField (entriesIdx (i + 1) xs) key)
        = none
    rw [hkey i]
    simpa using ih (i + 1)

/-- No decimal index key is found by the vendor-JSON search. -/
theorem find_plusJson_entriesIdx :
    ∀ (xs : List Json) (i : Nat),
      (entriesIdx i xs).find? (fun p => plusJsonKey p.1) = none := by
  intro xs
  induction xs with
  | nil => intro i; rfl
  | cons x xs ih =>
    intro i
    show List.find? (fun p => plusJsonKey p.1)
        ((toString i, x) :: entriesIdx (i + 1) xs) = none
    rw [List.find?_cons_of_neg _ (by simp [plusJsonKey_toString_nat i])]
    exact ih (i + 1)

/-- The first index entry carries the first element. -/
theorem head_entriesIdx : ∀ (xs : List Json) (i : Nat),
    (entriesIdx i xs).head?.map Prod.snd = xs.head? := by
  intro xs i
  cases xs <;> rfl

/-- C8 amended: absent and primitive inputs give absent; on object input the
precedence is a truthy application/json entry first, else the entry of the
first application/<x>+json key, else a truthy entry under the wildcard key,
else the first entry in iteration order; a (non-mapping) array input is a JS
object, passes the typeof guard, and falls through the same rules over its
decimal index entries to its first element (absent for the empty array); and
on the spec's concrete content map with an XML entry first and a vendor-JSON
entry second the vendor entry wins. -/
theorem c8_amended_pick_precedence :
    (pickJsonishContent none = none)
    ∧ (pickJsonishContent (some .null) = none)
    ∧ (∀ b, pickJsonishContent (some (.bool b)) = none)
    ∧ (∀ n, pickJsonishContent (some (.num n)) = none)
    ∧ (∀ s, pickJsonishContent (some (.str s)) = none)
    ∧ (∀ fs v, getField fs "application/json" = some v → truthy v = true →
        pickJsonishContent (some (.obj fs)) = some v)
    ∧ (∀ fs p, truthyO (getField fs "application/json") = false →
        fs.find? (fun q => plusJsonKey q.1) = some p →
        pickJsonishContent (some (.obj fs)) = getField fs p.1)
    ∧ (∀ fs v, truthyO (getField fs "application/json") = false →
        fs.find? (fun q => plusJsonKey q.1) = none →
        getField fs "*/*" = some v → truthy v = true →
        pickJsonishContent (some (.obj fs)) = some v)
    ∧ (∀ fs, truthyO (getField fs "application/json") = false →
        fs.find? (fun q => plusJsonKey q.1) = none →
        truthyO (getField fs "*/*") = false →
        pickJsonishContent (some (.obj fs)) = fs.head?.map Prod.snd)
    ∧ (∀ xs : List Json, pickJsonishContent (some (.arr xs)) = xs.head?)
    ∧ pickJsonishContent (some (.obj
        [("application/xml", .str "X"), ("application/vnd.api+json", .str "Y")]))
      = some (.str "Y") := by
  refine ⟨rfl, rfl, fun b => rfl, fun n => rfl, fun s => rfl, ?_, ?_, ?_, ?_, ?_, by rfl⟩
  · intro fs v hg ht
    have ht2 : truthyO (getField fs "application/json") = true := by
      rw [hg]
      exact ht
    show (if truthyO (getField fs "application/json") then
        getField fs "application/json" else _) = some v
    rw [if_pos ht2, hg]
  · intro fs p hf hfind
    show (if truthyO (getField fs "application/json") then
        getField fs "application/json"
      else
        match fs.find? (fun q => plusJsonKey q.1) with
        | some p => getField fs p.1
        | none =>
          if truthyO (getField fs "*/*") then getField fs "*/*"
          else fs.head?.map Prod.snd) = getField fs p.1
    rw [if_neg (by simp [hf]), hfind]
  · intro fs v hf hfind hg ht
    show (if truthyO (getField fs "application/json") then
        getField fs "application/json"
      else
        match fs.find? (fun q => plusJsonKey q.1) with
        | some p => getField fs p.1
        | none =>
          if truthyO (getField fs "*/*") then getField fs "*/*"
          else fs.head?.map Prod.snd) = some v
    rw [if_neg (by simp [hf]), hfind]
    have ht2 : truthyO (getField fs "*/*") = true := by
      rw [hg]
      exact ht
    rw [if_pos ht2, hg]
  · intro fs hf hfind hw
    show (if truthyO (getField fs "application/json") then
        getField fs "application/json"
      else
        match fs.find? (fun q => plusJsonKey q.1) with
        | some p => getField fs p.1
        | none =>
          if truthyO (getField fs "*/*") then getField fs "*/*"
          else fs.head?.map Prod.snd) = fs.head?.map Prod.snd
    rw [if_neg (by simp [hf]), hfind, if_neg (by simp [hw])]
  · intro xs
    have h1 : getField (entriesIdx 0 xs) "application/json" = none :=
      getField_entriesIdx_none _ toString_nat_ne_appjson xs 0
    have h2 : (entriesIdx 0 xs).find? (fun q => plusJsonKey q.1) = none :=
      find_plusJson_entriesIdx xs 0
    have h3 : getField (entriesIdx 0 xs) "*/*" = none :=
      getField_entriesIdx_none _ toString_nat_ne_star xs 0
    show (if truthyO (getField (entriesIdx 0 xs) "application/json") then
        getField (entriesIdx 0 xs) "application/json"
      else
        match (entriesIdx 0 xs).find? (fun p => plusJsonKey p.1) with
        | some p => getField (entriesIdx 0 xs) p.1
        | none =>
          if truthyO (getField (entriesIdx 0 xs) "*/*") then
            getField (entriesIdx 0 xs) "*/*"
          else (entriesIdx 0 xs).head?.map Prod.snd) = xs.head?
    rw [h1, h2, h3]
    simpa using head_entriesIdx xs 0

/-- C8 witness: the amended precedence applied at concrete content maps, one
per hypothesis-bearing clause. -/
theorem c8_amended_witness :
    pickJsonishContent (some (.obj [("application/json", .str "v")])) = some (.str "v")
    ∧ pickJsonishContent (some (.obj [("text/plain", .str "t"),
        ("application/vnd+json", .str "w")])) = some (.str "w")
    ∧ pickJsonishContent (some (.obj [("text/plain", .str "t"), ("*/*", .str "u")]))
      = some (.str "u")
    ∧ pickJsonishContent (some (.obj [("text/plain", .str "t")])) = some (.str "t") := by
  refine ⟨?_, ?_, ?_, ?_⟩
  · exact (c8_amended_pick_precedence).2.2.2.2.2.1
      [("application/json", .str "v")] (.str "v") (by rfl) (by rfl)
  · exact (c8_amended_pick_precedence).2.2.2.2.2.2.1
      [("text/plain", .str "t"), ("application/vnd+json", .str "w")]
      ("application/vnd+json", .str "w") (by rfl) (by rfl)
  · exact (c8_amended_pick_precedence).2.2.2.2.2.2.2.1
      [("text/plain", .str "t"), ("*/*", .str "u")] (.str "u")
      (by rfl) (by rfl) (by rfl) (by rfl)
  · exact (c8_amended_pick_precedence).2.2.2.2.2.2.2.2.1
      [("text/plain", .str "t")] (by rfl) (by rfl) (by rfl)

/-- The whitespace characters JS String.prototype.trim strips (the ASCII ones
plus no-break space and the BOM, which cover the inputs at hand). -/
def isWsJS (c : Char) : Bool :=
  c == ' ' || c == '\t' || c == '\n' || c == '\r' || c == '\x0b' || c == '\x0c'
    || c == '\xa0' || c == '﻿'

/-- JS String.prototype.trim: strip leading and trailing whitespace. -/
def jsTrim (s : String) : String :=
  ⟨((s.data.dropWhile isWsJS).reverse.dropWhile isWsJS).reverse⟩

/-- The decimal digit character for n % 10. -/
def digitCh (n : Nat) : Char := Char.ofNat (48 + n % 10)

/-- Decimal digits of a natural number, most significant first, with
structural gas (gas = n + 1 suffices). -/
def natChars : Nat → Nat → List Char
  | 0, _ => []
  | g + 1, n => if n < 10 then [digitCh n] else natChars g (n / 10) ++ [digitCh n]

/-- Decimal string of a natural number. -/
def natToStr (n : Nat) : String := ⟨natChars (n + 1) n⟩

/-- Decimal string of an integer (the JS Number-to-string of our integral
numbers). -/
def intToStr (i : Int) : String :=
  if i < 0 then "-" ++ natToStr i.natAbs else natToStr i.natAbs

/-- Comma-joining for JS Array.prototype.join with the default separator. -/
def commaJoin : List String → String
  | [] => ""
  | [s] => s
  | s :: rest => s ++ "," ++ commaJoin rest

/-- JS String(v) coercion on our values: strings pass through, numbers print
in decimal, booleans and null print their keywords, arrays comma-join their
elements with null printing empty inside an array, plain objects print
[object Object]. Structural gas bounds the array nesting; jsize of the value
is always enough. -/
def jsToStringGo : Nat → Json → String
  | _, .null => "null"
  | _, .bool true => "true"
  | _, .bool false => "false"
  | _, .num i => intToStr i
  | _, .str s => s
  | 0, .arr _ => ""
  | g + 1, .arr xs =>
    commaJoin (xs.map (fun x => match x with
      | .null => ""
      | v => jsToStringGo g v))
  | _, .obj _ => "[object Object]"

/-- JS String(v) coercion on our values. -/
def jsToString (v : Json) : String := jsToStringGo (jsize v) v

/-- The validation half of the source's parseOpenAPI: the openapi field must
be truthy and its string coercion must start with 3., else the version error;
then the paths field must be truthy, else the missing-paths error; both
errors are ordinary messages of one error type. -/
def validateOpenAPI (doc : Json) : Except String Json :=
  let op := getF doc "openapi"
  if !(truthyO op && strLeads (jsToString (op.getD .null)) "3.") then
    .error "OpenAPI 3.x required"
  else if !truthyO (getF doc "paths") then
    .error "Missing \"paths\""
  else
    .ok doc

/-- The source's parseOpenAPI, parameterized by the two underlying text
parsers (strict JSON and the permissive structured-text parser): the raw text
is trimmed and routed to the JSON parser exactly when it starts with an
opening curly brace (everything else, including text starting with an
opening square bracket, goes to the permissive parser); a parser failure is
rethrown with the Failed to parse: message; a parsed document is validated. -/
def parseOpenAPI (jp yl : String → Except String Json) (raw : String) :
    Except String Json :=
  match (if strLeads (jsTrim raw) "\x7b" then jp raw else yl raw) with
  | .error m => .error ("Failed to parse: " ++ m)
  | .ok doc => validateOpenAPI doc

/-- A valid document the JSON probe parser returns. -/
def docJ : Json :=
  .obj [("openapi", .str "3.0.0"), ("paths", .obj [("/a", .obj [])])]

/-- A valid document the permissive probe parser returns, distinct from
docJ. -/
def docY : Json :=
  .obj [("openapi", .str "3.1.0"), ("paths", .obj [("/b", .obj [])])]

/-- Probe JSON parser: accepts everything, returning docJ. -/
def jpProbe (_ : String) : Except String Json := .ok docJ

/-- Probe permissive parser: accepts everything, returning docY. -/
def ylProbe (_ : String) : Except String Json := .ok docY

/-- C4 counterexample: input starting with an opening square bracket is NOT
routed to the strict JSON parser: with probe parsers that tell the two routes
apart, the bracket input comes back from the permissive parser. -/
theorem c4_counterexample_bracket_routed_permissive :
    strLeads (jsTrim "[1, 2]") "[" = true
    ∧ parseOpenAPI jpProbe ylProbe "[1, 2]" = .ok docY
    ∧ docY ≠ docJ := by
  refine ⟨rfl, rfl, ?_⟩
  intro h
  simp [docY, docJ] at h

/-- C4 amended: trimmed input starting with an opening curly brace goes to
the strict JSON parser, all other input (including input starting with an
opening square bracket) goes to the permissive parser; either parser's
failure message m is rethrown as Failed to parse: m; a parsed document whose
openapi field is falsy or absent, or whose string coercion does not start
with 3., fails with OpenAPI 3.x required; one with a falsy or absent paths
field fails with the missing-paths message; otherwise the document is
returned. Both failures are messages of the one error type, not distinct
error kinds. -/
theorem c4_amended_routing_and_validation :
    (∀ jp yl raw m, strLeads (jsTrim raw) "\x7b" = true → jp raw = .error m →
      parseOpenAPI jp yl raw = .error ("Failed to parse: " ++ m))
    ∧ (∀ jp yl raw m, strLeads (jsTrim raw) "\x7b" = false → yl raw = .error m →
      parseOpenAPI jp yl raw = .error ("Failed to parse: " ++ m))
    ∧ (∀ jp yl raw doc, strLeads (jsTrim raw) "\x7b" = false → yl raw = .ok doc →
      parseOpenAPI jp yl raw = validateOpenAPI doc)
    ∧ (∀ jp yl raw doc, strLeads (jsTrim raw) "\x7b" = true → jp raw = .ok doc →
      parseOpenAPI jp yl raw = validateOpenAPI doc)
    ∧ (∀ doc, truthyO (getF doc "openapi") = false →
      validateOpenAPI doc = .error "OpenAPI 3.x required")
    ∧ (∀ doc v, getF doc "openapi" = some v → strLeads (jsToString v) "3." = false →
      validateOpenAPI doc = .error "OpenAPI 3.x required")
    ∧ (∀ doc v, getF doc "openapi" = some v → truthy v = true →
      strLeads (jsToString v) "3." = true → truthyO (getF doc "paths") = false →
      validateOpenAPI doc = .error "Missing \"paths\"")
    ∧ (∀ doc v, getF doc "openapi" = some v → truthy v = true →
      strLeads (jsToString v) "3." = true → truthyO (getF doc "paths") = true →
      validateOpenAPI doc = .ok doc) := by
  refine ⟨?_, ?_, ?_, ?_, ?_, ?_, ?_, ?_⟩
  · intro jp yl raw m hb hp
    simp [parseOpenAPI, hb, hp]
  · intro jp yl raw m hb hp
    simp [parseOpenAPI, hb, hp]
  · intro jp yl raw doc hb hp
    simp [parseOpenAPI, hb, hp]
  · intro jp yl raw doc hb hp
    simp [parseOpenAPI, hb, hp]
  · intro doc h
    simp [validateOpenAPI, h]
  · intro doc v hv hs
    simp [validateOpenAPI, hv, hs]
  · intro doc v hv ht hs hp
    have hp2 : (match getF doc "paths" with
      | none => false
      | some w => truthy w) = false := hp
    simp [validateOpenAPI, truthyO, hv, ht, hs, hp2]
  · intro doc v hv ht hs hp
    have hp2 : (match getF doc "paths" with
      | none => false
      | some w => truthy w) = true := hp
    simp [validateOpenAPI, truthyO, hv, ht, hs, hp2]

/-- C4 witness: the amended routing and validation at concrete inputs — a
curly-brace input routed to the JSON probe, a plain-text input routed to the
permissive probe, and each validation failure at a concrete document. -/
theorem c4_amended_witness :
    parseOpenAPI jpProbe ylProbe "\x7b \x7d" = .ok docJ
    ∧ parseOpenAPI jpProbe ylProbe "a: 1" = .ok docY
    ∧ validateOpenAPI (.obj []) = .error "OpenAPI 3.x required"
    ∧ validateOpenAPI (.obj [("openapi", .str "2.0")]) = .error "OpenAPI 3.x required"
    ∧ validateOpenAPI (.obj [("openapi", .str "3.0.0")]) = .error "Missing \"paths\""
    ∧ validateOpenAPI docJ = .ok docJ := by
  refine ⟨?_, ?_, ?_, ?_, ?_, ?_⟩
  · exact (c4_amended_routing_and_validation.2.2.2.1 jpProbe ylProbe "\x7b \x7d" docJ
      (by rfl) (by rfl)).trans (by rfl)
  · exact (c4_amended_routing_and_validation.2.2.1 jpProbe ylProbe "a: 1" docY
      (by rfl) (by rfl)).trans (by rfl)
  · exact c4_amended_routing_and_validation.2.2.2.2.1 (.obj []) (by rfl)
  · exact c4_amended_routing_and_validation.2.2.2.2.2.1 (.obj [("openapi", .str "2.0")])
      (.str "2.0") (by rfl) (by rfl)
  · exact c4_amended_routing_and_validation.2.2.2.2.2.2.1 (.obj [("openapi", .str "3.0.0")])
      (.str "3.0.0") (by rfl) (by rfl) (by rfl) (by rfl)
  · exact c4_amended_routing_and_validation.2.2.2.2.2.2.2 docJ (.str "3.0.0")
      (by rfl) (by rfl) (by rfl) (by rfl)

/-- ASCII letter or digit, the a-zA-Z0-9 part of the source's kept-character
class. -/
def isAlnumAscii (c : Char) : Bool :=
  ('a' ≤ c && c ≤ 'z') || ('A' ≤ c && c ≤ 'Z') || ('0' ≤ c && c ≤ '9')

/-- Replace every maximal run of characters satisfying p by the single
character rep, JS String.prototype.replace with a one-plus global pattern;
the flag records whether the previous character was inside a run. -/
def collapseGo (p : Char → Bool) (rep : Char) : Bool → List Char → List Char
  | _, [] => []
  | inRun, c :: cs =>
    if p c then
      if inRun then collapseGo p rep true cs
      else rep :: collapseGo p rep true cs
    else c :: collapseGo p rep false cs

/-- Replace every maximal run of characters satisfying p by rep. -/
def collapseRuns (p : Char → Bool) (rep : Char) (xs : List Char) : List Char :=
  collapseGo p rep false xs

/-- Remove the maximal trailing run of hyphens, JS replace with an anchored
trailing hyphen-plus pattern, written as direct structural recursion. -/
def stripEndHyph : List Char → List Char
  | [] => []
  | c :: cs =>
    match stripEndHyph cs with
    | [] => if c == '-' then [] else [c]
    | r => c :: r

/-- The last character of a character list, if any. -/
def lastCh : List Char → Option Char
  | [] => none
  | [c] => some c
  | _ :: c :: rest => lastCh (c :: rest)

/-- No two adjacent characters both satisfy p. -/
def noRun (p : Char → Bool) : List Char → Bool
  | [] => true
  | [_] => true
  | c :: d :: rest => !(p c && p d) && noRun p (d :: rest)

/-- The source's sanitizeName: trim, slash runs to a hyphen, drop everything
but ASCII letters, digits, hyphens and whitespace, whitespace runs to a
hyphen, hyphen runs to one hyphen, strip leading and trailing hyphen runs. -/
def sanitizeName (name : String) : String :=
  let s1 := (jsTrim name).data
  let s2 := collapseRuns (fun c => c == '/') '-' s1
  let s3 := s2.filter (fun c => isAlnumAscii c || c == '-' || isWsJS c)
  let s4 := collapseRuns isWsJS '-' s3
  let s5 := collapseRuns (fun c => c == '-') '-' s4
  let s6 := s5.dropWhile (fun c => c == '-')
  ⟨stripEndHyph s6⟩

/-- Every character of a collapsed list is either the replacement or a
character of the input outside any run. -/
theorem mem_collapseGo (p : Char → Bool) (rep : Char) :
    ∀ (xs : List Char) (b : Bool) (c : Char), c ∈ collapseGo p rep b xs →
      c = rep ∨ (c ∈ xs ∧ p c = false) := by
  intro xs
  induction xs with
  | nil => intro b c h; simp [collapseGo] at h
  | cons x cs ih =>
    intro b c h
    by_cases hx : p x = true
    · rw [show collapseGo p rep b (x :: cs)
          = (if b then collapseGo p rep true cs
             else rep :: collapseGo p rep true cs) from by
        simp [collapseGo, hx]] at h
      cases b with
      | true =>
        rcases ih true c (by simpa using h) with h1 | ⟨h2, h3⟩
        · exact Or.inl h1
        · exact Or.inr ⟨List.mem_cons_of_mem _ h2, h3⟩
      | false =>
        rcases List.mem_cons.mp (by simpa using h) with h1 | h1
        · exact Or.inl h1
        · rcases ih true c h1 with h2 | ⟨h3, h4⟩
          · exact Or.inl h2
          · exact Or.inr ⟨List.mem_cons_of_mem _ h3, h4⟩
    · have hx' : p x = false := by simpa using hx
      rw [show collapseGo p rep b (x :: cs) = x :: collapseGo p rep false cs from by
        simp [collapseGo, hx']] at h
      rcases List.mem_cons.mp h with h1 | h1
      · exact Or.inr ⟨by simp [h1], by rw [h1]; exact hx'⟩
      · rcases ih false c h1 with h2 | ⟨h3, h4⟩
        · exact Or.inl h2
        · exact Or.inr ⟨List.mem_cons_of_mem _ h3, h4⟩

/-- Mid-run, the next emitted character never satisfies p. -/
theorem head_collapseGo_true (p : Char → Bool) (rep : Char) :
    ∀ (xs : List Char) (c : Char),
      (collapseGo p rep true xs).head? = some c → p c = false := by
  intro xs
  induction xs with
  | nil => intro c h; simp [collapseGo] at h
  | cons x cs ih =>
    intro c h
    by_cases hx : p x = true
    · rw [show collapseGo p rep true (x :: cs) = collapseGo p rep true cs from by
        simp [collapseGo, hx]] at h
      exact ih c h
    · have hx' : p x = false := by simpa using hx
      rw [show collapseGo p rep true (x :: cs) = x :: collapseGo p rep false cs from by
        simp [collapseGo, hx']] at h
      have : x = c := by simpa using h
      rw [← this]
      exact hx'

/-- noRun restricts to the tail. -/
theorem noRun_tail (p : Char → Bool) (c : Char) (cs : List Char)
    (h : noRun p (c :: cs) = true) : noRun p cs = true := by
  cases cs with
  | nil => rfl
  | cons d rest =>
    simp [noRun] at h
    exact h.2

/-- Collapsing runs of p leaves no two adjacent characters satisfying p. -/
theorem noRun_collapseGo (p : Char → Bool) (rep : Char) :
    ∀ (xs : List Char) (b : Bool), noRun p (collapseGo p rep b xs) = true := by
  intro xs
  induction xs with
  | nil => intro b; rfl
  | cons x cs ih =>
    intro b
    by_cases hx : p x = true
    · cases b with
      | true =>
        rw [show collapseGo p rep true (x :: cs) = collapseGo p rep true cs from by
          simp [collapseGo, hx]]
        exact ih true
      | false =>
        rw [show collapseGo p rep false (x :: cs)
            = rep :: collapseGo p rep true cs from by simp [collapseGo, hx]]
        cases hs : collapseGo p rep true cs with
        | nil => rfl
        | cons d rest =>
          have hd : p d = false := head_collapseGo_true p rep cs d (by rw [hs]; rfl)
          have ht : noRun p (d :: rest) = true := by rw [← hs]; exact ih true
          simp [noRun, hd, ht]
    · have hx' : p x = false := by simpa using hx
      rw [show collapseGo p rep b (x :: cs) = x :: collapseGo p rep false cs from by
        simp [collapseGo, hx']]
      cases hs : collapseGo p rep false cs with
      | nil => rfl
      | cons d rest =>
        have ht : noRun p (d :: rest) = true := by rw [← hs]; exact ih false
        simp [noRun, hx', ht]

/-- dropWhile preserves noRun. -/
theorem noRun_dropWhile (p q : Char → Bool) :
    ∀ xs, noRun p xs = true → noRun p (xs.dropWhile q) = true := by
  intro xs
  induction xs with
  | nil => intro h; simpa using h
  | cons x cs ih =>
    intro h
    by_cases hx : q x = true
    · rw [show List.dropWhile q (x :: cs) = List.dropWhile q cs from by
        simp [List.dropWhile, hx]]
      exact ih (noRun_tail p x cs h)
    · have hx' : q x = false := by simpa using hx
      rw [show List.dropWhile q (x :: cs) = x :: cs from by simp [List.dropWhile, hx']]
      exact h

/-- The head surviving dropWhile fails the dropped predicate. -/
theorem head_dropWhile (q : Char → Bool) :
    ∀ (xs : List Char) (c : Char),
      (xs.dropWhile q).head? = some c → q c = false := by
  intro xs
  induction xs with
  | nil => intro c h; simp at h
  | cons x cs ih =>
    intro c h
    by_cases hx : q x = true
    · rw [show List.dropWhile q (x :: cs) = List.dropWhile q cs from by
        simp [List.dropWhile, hx]] at h
      exact ih c h
    · have hx' : q x = false := by simpa using hx
      rw [show List.dropWhile q (x :: cs) = x :: cs from by
        simp [List.dropWhile, hx']] at h
      have : x = c := by simpa using h
      rw [← this]
      exact hx'

/-- Membership in a dropWhile result. -/
theorem mem_dropWhileSub (q : Char → Bool) :
    ∀ (xs : List Char) (c : Char), c ∈ xs.dropWhile q → c ∈ xs := by
  intro xs
  induction xs with
  | nil => intro c h; simpa using h
  | cons x cs ih =>
    intro c h
    by_cases hx : q x = true
    · rw [show List.dropWhile q (x :: cs) = List.dropWhile q cs from by
        simp [List.dropWhile, hx]] at h
      exact List.mem_cons_of_mem _ (ih c h)
    · have hx' : q x = false := by simpa using hx
      rw [show List.dropWhile q (x :: cs) = x :: cs from by
        simp [List.dropWhile, hx']] at h
      exact h

/-- Membership in a trailing-hyphen-stripped list. -/
theorem mem_stripEndHyph :
    ∀ (xs : List Char) (c : Char), c ∈ stripEndHyph xs → c ∈ xs := by
  intro xs
  induction xs with
  | nil => intro c h; simpa [stripEndHyph] using h
  | cons x cs ih =>
    intro c h
    cases hs : stripEndHyph cs with
    | nil =>
      rw [show stripEndHyph (x :: cs) = (if x == '-' then [] else [x]) from by
        rw [stripEndHyph, hs]] at h
      by_cases hx : (x == '-') = true
      · rw [if_pos hx] at h; simp at h
      · rw [if_neg (by simpa using hx)] at h
        have : c = x := by simpa using h
        simp [this]
    | cons d rest =>
      rw [show stripEndHyph (x :: cs) = x :: d :: rest from by
        rw [stripEndHyph, hs]] at h
      rcases List.mem_cons.mp h with h1 | h1
      · simp [h1]
      · exact List.mem_cons_of_mem _ (ih c (by rw [hs]; exact h1))

/-- Stripping trailing hyphens keeps the head. -/
theorem head_stripEndHyph :
    ∀ (xs : List Char) (c : Char),
      (stripEndHyph xs).head? = some c → xs.head? = some c := by
  intro xs
  induction xs with
  | nil => intro c h; simp [stripEndHyph] at h
  | cons x cs _ =>
    intro c h
    cases hs : stripEndHyph cs with
    | nil =>
      rw [show stripEndHyph (x :: cs) = (if x == '-' then [] else [x]) from by
        rw [stripEndHyph, hs]] at h
      by_cases hx : (x == '-') = true
      · rw [if_pos hx] at h; simp at h
      · rw [if_neg (by simpa using hx)] at h
        simpa using h
    | cons d rest =>
      rw [show stripEndHyph (x :: cs) = x :: d :: rest from by
        rw [stripEndHyph, hs]] at h
      simpa using h

/-- After stripping trailing hyphens, the last character is not a hyphen. -/
theorem lastCh_stripEndHyph :
    ∀ (xs : List Char) (c : Char),
      lastCh (stripEndHyph xs) = some c → (c == '-') = false := by
  intro xs
  induction xs with
  | nil => intro c h; simp [stripEndHyph, lastCh] at h
  | cons x cs ih =>
    intro c h
    cases hs : stripEndHyph cs with
    | nil =>
      rw [show stripEndHyph (x :: cs) = (if x == '-' then [] else [x]) from by
        rw [stripEndHyph, hs]] at h
      by_cases hx : (x == '-') = true
      · rw [if_pos hx] at h; simp [lastCh] at h
      · rw [if_neg (by simpa using hx)] at h
        have : x = c := by simpa [lastCh] using h
        rw [← this]
        simpa using hx
    | cons d rest =>
      rw [show stripEndHyph (x :: cs) = x :: d :: rest from by
        rw [stripEndHyph, hs]] at h
      have h2 : lastCh (stripEndHyph cs) = some c := by
        rw [hs]
        exact h
      exact ih c h2

/-- Stripping trailing hyphens preserves noRun. -/
theorem noRun_stripEndHyph (p : Char → Bool) :
    ∀ xs, noRun p xs = true → noRun p (stripEndHyph xs) = true := by
  intro xs
  induction xs with
  | nil => intro h; simpa [stripEndHyph] using h
  | cons x cs ih =>
    intro h
    cases hs : stripEndHyph cs with
    | nil =>
      rw [show stripEndHyph (x :: cs) = (if x == '-' then [] else [x]) from by
        rw [stripEndHyph, hs]]
      by_cases hx : (x == '-') = true
      · rw [if_pos hx]; rfl
      · rw [if_neg (by simpa using hx)]; rfl
    | cons d rest =>
      rw [show stripEndHyph (x :: cs) = x :: d :: rest from by
        rw [stripEndHyph, hs]]
      have hhead : cs.head? = some d := head_stripEndHyph cs d (by rw [hs]; rfl)
      cases cs with
      | nil => simp at hhead
      | cons e cs2 =>
        have he : e = d := by simpa using hhead
        have hp2 : (p x && p d) = false := by
          have h3 : (p x && p e) = false := by
            have h4 := h
            simp [noRun] at h4
            rcases h4.1 with h5 | h5 <;> simp [h5]
          rw [← he]
          exact h3
        have ht : noRun p (d :: rest) = true := by
          rw [← hs]
          exact ih (noRun_tail p x _ h)
        simp [noRun, ht, hp2]

/-- A character that is an ASCII letter, digit or hyphen is neither a slash
nor whitespace. -/
theorem alnum_or_hyph_props (c : Char) (h : (isAlnumAscii c || c == '-') = true) :
    c ≠ '/' ∧ isWsJS c = false := by
  constructor
  · intro hc
    rw [hc] at h
    exact absurd h (by decide)
  · by_cases hw : isWsJS c = true
    · simp [isWsJS] at hw
      rcases hw with (((((((rfl | rfl) | rfl) | rfl) | rfl) | rfl) | rfl) | rfl) <;>
        exact absurd h (by decide)
    · simpa using hw

/-- C10: for every input string, sanitizeName returns only ASCII letters,
digits and hyphens, with no leading hyphen, no trailing hyphen and no two
adjacent hyphens, and in particular no slash and no whitespace. -/
theorem c10_sanitized_name_shape (name : String) :
    ((sanitizeName name).data.all (fun c => isAlnumAscii c || c == '-') = true)
    ∧ ((sanitizeName name).data.head? ≠ some '-')
    ∧ (lastCh (sanitizeName name).data ≠ some '-')
    ∧ (noRun (fun c => c == '-') (sanitizeName name).data = true)
    ∧ (∀ c ∈ (sanitizeName name).data, c ≠ '/' ∧ isWsJS c = false) := by
  have hdata : (sanitizeName name).data
      = stripEndHyph (List.dropWhile (fun c => c == '-')
          (collapseRuns (fun c => c == '-') '-'
            (collapseRuns isWsJS '-'
              (List.filter (fun c => isAlnumAscii c || c == '-' || isWsJS c)
                (collapseRuns (fun c => c == '/') '-' (jsTrim name).data))))) := rfl
  have hall : ∀ c ∈ (sanitizeName name).data, (isAlnumAscii c || c == '-') = true := by
    intro c hc
    rw [hdata] at hc
    have hc6 := mem_stripEndHyph _ c hc
    have hc5 := mem_dropWhileSub _ _ c hc6
    rcases mem_collapseGo _ _ _ _ c hc5 with hrep | ⟨hc4, _⟩
    · rw [hrep]; decide
    · rcases mem_collapseGo _ _ _ _ c hc4 with hrep | ⟨hc3, hws⟩
      · rw [hrep]; decide
      · have hfil := (List.mem_filter.mp hc3).2
        rcases Bool.or_eq_true_iff.mp hfil with h1 | h1
        · exact h1
        · rw [h1] at hws
          cases hws
  refine ⟨List.all_eq_true.mpr hall, ?_, ?_, ?_, fun c hc => alnum_or_hyph_props c (hall c hc)⟩
  · intro heq
    rw [hdata] at heq
    have h6 := head_stripEndHyph _ _ heq
    have h5 := head_dropWhile _ _ _ h6
    exact absurd h5 (by decide)
  · intro heq
    rw [hdata] at heq
    have := lastCh_stripEndHyph _ _ heq
    exact absurd this (by decide)
  · rw [hdata]
    apply noRun_stripEndHyph
    apply noRun_dropWhile
    exact noRun_collapseGo _ _ _ _

/-- The endpoint node built for one operation, keeping the source's fields:
deref is applied to parameters elements and to truthy requestBody and
responses, the id strings follow the source's templates, raw keeps the
operation object. -/
structure EndpointNode where
  id : String
  type : String
  path : String
  method : String
  operationId : Option Json
  summary : Option Json
  description : Option Json
  parameters : List Json
  requestBody : Option Json
  responses : Option Json
  tag : String
  raw : Json

/-- A path node, scoped under one tag node. -/
structure PathNode where
  id : String
  type : String
  label : String
  children : List EndpointNode

/-- A tag node, keyed and labeled by the tag name. -/
structure TagNode where
  id : String
  description : String
  type : String
  label : String
  children : List PathNode

/-- ASCII lower-casing of a string (the source lower-cases HTTP method
names, which are ASCII). -/
def lowerStr (s : String) : String := ⟨s.data.map lowerAscii⟩

/-- The HTTP methods the tree builder accepts. -/
def httpMethods : List String :=
  ["get", "post", "put", "patch", "delete", "options", "head", "trace"]

/-- JS indexing v[0]: first element of an array, first character of a
string, the field named 0 of an object, else undefined. -/
def idx0 (t : Json) : Option Json :=
  match t with
  | .arr (x :: _) => some x
  | .arr [] => none
  | .str s =>
    match s.data with
    | [] => none
    | c :: _ => some (.str ⟨[c]⟩)
  | .obj fs => getField fs "0"
  | _ => none

/-- The source's tag choice (op?.tags and-then op.tags[0], or-else
untagged): absent or falsy tags give untagged, else the first element when
truthy (string-coerced for use as a key and label; tags are strings in the
documents at hand), else untagged. -/
def tagOf (op : Json) : String :=
  match getF op "tags" with
  | none => "untagged"
  | some t =>
    if truthy t then
      match idx0 t with
      | some v => if truthy v then jsToString v else "untagged"
      | none => "untagged"
    else "untagged"

/-- Append a fresh tag node for the name unless one exists (Map insertion
order is kept as list order). -/
def ensureTag (acc : List TagNode) (name : String) : List TagNode :=
  if acc.any (fun t => t.label == name) then acc
  else acc ++ [{ id := "tag:" ++ name, description := "", type := "tag",
                 label := name, children := [] }]

/-- Add the endpoint to the tag node: into the existing path node with this
path label if there is one, else into a fresh tag-scoped path node whose id
also names the tag. -/
def addToTag (tn : TagNode) (path : String) (tg : String) (ep : EndpointNode) :
    TagNode :=
  if tn.children.any (fun p => p.label == path) then
    { tn with children := tn.children.map (fun p =>
        if p.label == path then { p with children := p.children ++ [ep] } else p) }
  else
    { tn with children := tn.children ++
        [{ id := "path:" ++ path ++ ":" ++ tg, type := "path", label := path,
           children := [ep] }] }

/-- Process one method/operation entry of a path item: skip non-object
operations and unknown methods, build the endpoint (applying deref where the
source does), ensure the tag node and place the endpoint under the
tag-scoped path node. -/
def processOp (deref : Json → Json) (acc : List TagNode) (path : String)
    (method : String) (op : Json) : List TagNode :=
  match op with
  | .obj _ =>
    let http := lowerStr method
    if httpMethods.contains http then
      let ps := match getF op "parameters" with
        | some (.arr xs) => xs.map deref
        | _ => []
      let rb := match getF op "requestBody" with
        | some v => if truthy v then some (deref v) else none
        | none => none
      let rs := match getF op "responses" with
        | some v => if truthy v then some (deref v) else none
        | none => none
      let tg := tagOf op
      let ep : EndpointNode :=
        { id := "ep:" ++ http ++ ":" ++ path, type := "endpoint", path := path,
          method := http, operationId := getF op "operationId",
          summary := getF op "summary", description := getF op "description",
          parameters := ps, requestBody := rb, responses := rs, tag := tg,
          raw := op }
      (ensureTag acc tg).map (fun tn =>
        if tn.label == tg then addToTag tn path tg ep else tn)
    else acc
  | _ => acc

/-- Process one path entry: skip non-object path items, fold the operations
in entry order. -/
def processItem (deref : Json → Json) (acc : List TagNode) (path : String)
    (item : Json) : List TagNode :=
  match item with
  | .obj ifs => ifs.foldl (fun a kv => processOp deref a path kv.1 kv.2) acc
  | _ => acc

/-- The unsorted tag list: guard that paths is a plain object, then fold the
path entries in order. -/
def buildTags (deref : Json → Json) (doc : Json) : List TagNode :=
  match getF doc "paths" with
  | some (.obj pfs) => pfs.foldl (fun a kv => processItem deref a kv.1 kv.2) []
  | _ => []

/-- Stable insertion of a tag node by the comparator on labels: the node
goes before the first node it does not compare after. -/
def insSorted (lc : String → String → Int) (t : TagNode) :
    List TagNode → List TagNode
  | [] => [t]
  | u :: us =>
    if lc t.label u.label ≤ 0 then t :: u :: us else u :: insSorted lc t us

/-- Stable sort by the comparator on labels (JS Array.prototype.sort is
stable; its order is determined by the comparator sign). -/
def jsSortBy (lc : String → String → Int) : List TagNode → List TagNode
  | [] => []
  | t :: ts => insSorted lc t (jsSortBy lc ts)

/-- The source's openApiToNodes, parameterized by the resolver closure deref
(the source obtains it from createOpenApiRefResolver) and by the comparator
lc that a.label.localeCompare(b.label) implements (locale-dependent). -/
def openApiToNodes (deref : Json → Json) (lc : String → String → Int)
    (doc : Json) : List TagNode :=
  jsSortBy lc (buildTags deref doc)

/-- Three-way comparison of character lists by code point. -/
def cmpChars : List Char → List Char → Int
  | [], [] => 0
  | [], _ :: _ => -1
  | _ :: _, [] => 1
  | c :: cs, d :: ds =>
    if c.toNat < d.toNat then -1
    else if d.toNat < c.toNat then 1
    else cmpChars cs ds

/-- Case-sensitive lexicographic comparator (by code point). -/
def lcLex (a b : String) : Int := cmpChars a.data b.data

/-- A case-insensitive collation comparator, as typical locales implement
localeCompare (lower-case letters collate with their upper-case forms). -/
def lcCI (a b : String) : Int :=
  cmpChars (a.data.map lowerAscii) (b.data.map lowerAscii)

/-- A document whose two operations carry tags a and B in that insertion
order. -/
def docab : Json :=
  .obj [("openapi", .str "3.0.0"),
        ("paths", .obj [("/p", .obj
          [("get", .obj [("tags", .arr [.str "a"])]),
           ("post", .obj [("tags", .arr [.str "B"])])])])]

/-- The spec's example document: operations tagged Zebra then Alpha. -/
def docZA : Json :=
  .obj [("openapi", .str "3.0.0"),
        ("paths", .obj [("/p", .obj
          [("get", .obj [("tags", .arr [.str "Zebra"])]),
           ("post", .obj [("tags", .arr [.str "Alpha"])])])])]

/-- C5 counterexample: the output order follows the localeCompare collation,
not case-sensitive lexicographic order: with the case-insensitive collation
a typical locale implements, tags a and B come out as a before B, while the
claimed case-sensitive lexicographic comparator puts B first; the two
disagree on the same document. -/
theorem c5_counterexample_locale_order :
    (openApiToNodes id lcCI docab).map (fun t => t.label) = ["a", "B"]
    ∧ (openApiToNodes id lcLex docab).map (fun t => t.label) = ["B", "a"]
    ∧ (["a", "B"] : List String) ≠ ["B", "a"] :=
  ⟨rfl, rfl, by decide⟩

/-- C5 amended: TagNodes are stably sorted by the comparator that
localeCompare implements (locale-dependent, not necessarily case-sensitive
lexicographic); for the spec's example document with tags Zebra then Alpha,
any comparator that orders Zebra after Alpha yields Alpha before Zebra. -/
theorem c5_amended_locale_sort (deref : Json → Json) (lc : String → String → Int)
    (h : lc "Zebra" "Alpha" > 0) :
    (openApiToNodes deref lc docZA).map (fun t => t.label) = ["Alpha", "Zebra"] := by
  obtain ⟨t, u, hl, ht, hu⟩ : ∃ t u, buildTags deref docZA = [t, u]
      ∧ t.label = "Zebra" ∧ u.label = "Alpha" := ⟨_, _, rfl, rfl, rfl⟩
  show (jsSortBy lc (buildTags deref docZA)).map (fun t => t.label) = ["Alpha", "Zebra"]
  rw [hl]
  have hc : ¬ (lc t.label u.label ≤ 0) := by
    rw [ht, hu]
    omega
  rw [show jsSortBy lc [t, u]
      = if lc t.label u.label ≤ 0 then [t, u] else [u, t] from rfl]
  rw [if_neg hc]
  simp [ht, hu]

/-- C5 witness: the amended ordering at the case-sensitive lexicographic
comparator, which does order Zebra after Alpha. -/
theorem c5_amended_witness :
    (openApiToNodes id lcLex docZA).map (fun t => t.label) = ["Alpha", "Zebra"] :=
  c5_amended_locale_sort id lcLex (by decide)

/-- A document with one path carrying operations with first tags A and B and
one operation without tags. -/
def doc7 : Json :=
  .obj [("openapi", .str "3.0.0"),
        ("paths", .obj [("/x", .obj
          [("get", .obj [("tags", .arr [.str "A"])]),
           ("post", .obj [("tags", .arr [.str "B"])]),
           ("put", .obj [("summary", .str "s")])])])]

/-- C7: path nodes are tag-scoped: with two operations under the one path
/x but different first tags and a third without tags, three tag nodes come
out (A, B, untagged), each holding its own path node labeled /x with a
distinct tag-qualified id, each containing exactly its own operation. -/
theorem c7_tag_scoped_path_nodes :
    (openApiToNodes id lcLex doc7).map (fun t =>
        (t.label, t.children.map (fun p =>
          (p.id, p.label, p.children.map (fun e => e.method)))))
      = [("A", [("path:/x:A", "/x", ["get"])]),
         ("B", [("path:/x:B", "/x", ["post"])]),
         ("untagged", [("path:/x:untagged", "/x", ["put"])])]
    ∧ ("path:/x:A" : String) ≠ "path:/x:B" :=
  ⟨rfl, by decide⟩
